import Mathlib

/-! Verification development for the citation / page-linking subsystem of the
MLB CBA chat assistant (`lib/pdfIndex.js` and its sibling variants).

The JavaScript sources are shallowly embedded: JS strings become `List Char`,
the regular-expression driven helpers become explicit recursive scanners with
the same matching semantics on the inputs in scope, and the floating-point
BM25 ranking becomes exact rational arithmetic in which the transcendental
`Math.log`-based IDF is supplied as an explicit function parameter.  Case
mapping is modelled on ASCII; all characters the code singles out (typographic
quotes, dashes) are untouched by `toLowerCase`, exactly as in JS. -/

set_option autoImplicit false
set_option maxRecDepth 100000

namespace Cba

/-- JS strings are modelled as lists of characters (code points). -/
abbrev Str := List Char

/-- Whitespace test matching the JS `\s` class on the character set in scope
(ASCII whitespace plus NBSP). -/
def isWs (c : Char) : Bool :=
  c = ' ' || c = '\t' || c = '\n' || c = '\r' || c = '\x0b' || c = '\x0c' || c = ' '

/-- JS `String.prototype.toLowerCase`, ASCII fragment. -/
def jsLower (s : Str) : Str := s.map Char.toLower

/-- Character replacement performed by `norm`: curly double quotes to `"`,
right single quote to `'` (part_007 lines 56, part_008 line 780). -/
def quoteFix (c : Char) : Char :=
  if c = '“' ∨ c = '”' then '"' else if c = '’' then '\'' else c

/-- Drop trailing whitespace. -/
def dropTrailWs (s : Str) : Str := (s.reverse.dropWhile isWs).reverse

/-- JS `String.prototype.trim`. -/
def trimStr (s : Str) : Str := dropTrailWs (s.dropWhile isWs)

/-- Worker for `collapseWs`; the flag records whether the position is inside
a whitespace run whose single space was already emitted. -/
def collapseWsGo : Bool → Str → Str
  | _, [] => []
  | prevWs, c :: r =>
    if isWs c then
      if prevWs then collapseWsGo true r
      else ' ' :: collapseWsGo true r
    else c :: collapseWsGo false r

/-- JS `replace(/\s+/g, " ")`: collapse each maximal whitespace run to one
space. -/
def collapseWs (s : Str) : Str := collapseWsGo false s

/-- JS `replace(/\s+/g, " ").trim()`, the whitespace normalisation used
throughout the source. -/
def collapseWsTrim (s : Str) : Str := trimStr (collapseWs s)

/-- Worker for `splitWs`; the flag records whether the position is inside a
whitespace run already accounted for. -/
def splitWsGo : Bool → Str → List Str
  | _, [] => [[]]
  | skip, c :: r =>
    if isWs c then
      if skip then splitWsGo true r
      else [] :: splitWsGo true r
    else (splitWsGo false r).modifyHead (c :: ·)

/-- JS `String.prototype.split(/\s+/)`: fields between maximal whitespace
runs, with an empty leading (resp. trailing) field when the string starts
(resp. ends) with whitespace, and `[""]` on the empty string. -/
def splitWs (s : Str) : List Str := splitWsGo false s

/-- Split at every single space character; agrees with `splitWs` on
single-spaced strings and is the convenient form for proofs. -/
def splitOnSp : Str → List Str
  | [] => [[]]
  | c :: r => if c = ' ' then [] :: splitOnSp r else (splitOnSp r).modifyHead (c :: ·)

/-- Normalisation `norm` of part_007 line 56 (and identically part_008 lines
546, 780): lowercase, unify curly quotes, collapse whitespace, trim. -/
def normS (s : Str) : Str := collapseWsTrim ((jsLower s).map quoteFix)

/-- Membership in the JS character class `[a-z0-9' -]`. -/
def keepStrip (c : Char) : Bool :=
  ('a' ≤ c && c ≤ 'z') || ('0' ≤ c && c ≤ '9') || c = '\'' || c = ' ' || c = '-'

/-- Punctuation-light form `strip` of part_007 line 57: characters outside
`[a-z0-9' -]` are deleted. -/
def stripS (s : Str) : Str := (normS s).filter keepStrip

/-- Stopword set of part_007 lines 51-55. -/
def stop7 : List Str :=
  (["the","and","for","with","that","this","from","into","such","shall","have","has","are",
    "was","were","will","may","can","not","than","then","there","their","they","them","his",
    "her","its","also","within","about","over","between","to","of","in","on","by","as","a",
    "an","or","at","be","is","it","if","but","so","do","does","did","after","before"]).map
    String.data

/-- Tokenizer of part_007 line 58: strip, split on whitespace, keep words of
length at least 3 that are not stopwords. -/
def tokenizeS (s : Str) : List Str :=
  (splitWs (stripS s)).filter
    (fun w => !w.isEmpty && !stop7.contains w && decide (3 ≤ w.length))

/-- Adjacent token pairs joined by a space (part_007 line 59). -/
def bigramsS : List Str → List Str
  | [] => []
  | [_] => []
  | a :: b :: r => (a ++ ' ' :: b) :: bigramsS (b :: r)

/-- The `trimWords` helper of part_007 lines 60-67: JS splits on `/\s+/`; if
at most `maxW` fields, return the trimmed string, else return the centered
span of `max(minW, min(maxW, 45))` fields joined by single spaces and
trimmed. -/
def trimWords (s : Str) (minW maxW : Nat) : Str :=
  let words := splitWs s
  if words.length ≤ maxW then trimStr s
  else
    let mid := words.length / 2
    let span := max minW (min maxW 45)
    let start := mid - span / 2
    trimStr (List.intercalate [' '] ((words.drop start).take span))

/-- The `snippetAround` helper of part_007 lines 172-177: re-collapse the page
text, slice the window `[idx-260, idx+280)` (clamped), and trim to the 25-45
word band. -/
def snippetAround (text : Str) (idx : Nat) : Str :=
  let t := collapseWsTrim text
  let start := idx - 260
  let stop := min t.length (idx + 280)
  trimWords ((t.drop start).take (stop - start)) 25 45

/-- First index of `needle` in `hay` (JS `String.prototype.indexOf`), `none`
standing for JS `-1`. -/
def idxOfSubGo (needle : Str) : Str → Nat → Option Nat
  | [], i => if needle.isEmpty then some i else none
  | c :: r, i => if needle.isPrefixOf (c :: r) then some i else idxOfSubGo needle r (i + 1)

/-- JS `hay.indexOf(needle)` with `none` for `-1`. -/
def idxOfSub (needle hay : Str) : Option Nat := idxOfSubGo needle hay 0

/-- Substring test, JS `String.prototype.includes`. -/
def containsSub (needle hay : Str) : Bool := (idxOfSub needle hay).isSome

/-- The `exactIndexOf` helper of part_007 lines 121-124: index of the
normalised needle in the normalised haystack. -/
def exactIndexOf (hay needle : Str) : Option Nat := idxOfSub (normS needle) (normS hay)

/-- JS `Math.ceil(n * 0.55)` for the token counts in scope: the exact ceiling
of `11 n / 20` (the double-precision product rounds to a value with the same
ceiling for every quote the 400-character parser cap admits). -/
def ceil55 (n : Nat) : Nat := (11 * n + 19) / 20

/-- Number of quote tokens present in the window (JS `Set`-membership count,
part_007 line 135). -/
def windowScore (Q w : List Str) : Nat := Q.countP (fun t => w.contains t)

/-- First-argmax scan over the token windows of length `win` (part_007 lines
131-137): returns `(index, score)` of the first best window. -/
def bestWindow (Q hToks : List Str) (win : Nat) : Nat × Nat :=
  let lim := hToks.length - win
  let score := fun i => windowScore Q ((hToks.drop i).take win)
  (List.range lim).foldl
    (fun best j =>
      let i := j + 1
      let s := score i
      if best.2 < s then (i, s) else best)
    (0, score 0)

/-- The `fuzzyBestIndex` locator of part_007 lines 125-142: token-window
overlap with the 55 percent acceptance gate; the returned char position is the
length of the joined tokens before the winning window. -/
def fuzzyBestIndex (hay quote : Str) : Option Nat :=
  let H := stripS hay
  let Q := tokenizeS quote
  if Q.isEmpty then none
  else
    let hToks := (splitWs H).filter (fun w => !w.isEmpty)
    let win := max 6 (min (Q.length + 6) 40)
    let best := bestWindow Q hToks win
    if best.2 < ceil55 Q.length then none
    else some (List.intercalate [' '] (hToks.take best.1)).length

/-- Decimal rendering of a page number. -/
def natStr (n : Nat) : Str := (toString n).data

/-- Case-insensitive prefix test: `pat` is given in lowercase. -/
def ciIsPrefix (pat : Str) (s : Str) : Bool := jsLower (s.take pat.length) == pat

/-- JS regex word character (`\w`): used for `\b` boundaries. -/
def isWordChar (c : Char) : Bool :=
  ('a' ≤ c && c ≤ 'z') || ('A' ≤ c && c ≤ 'Z') || ('0' ≤ c && c ≤ '9') || c = '_'

/-- Case-insensitive roman-numeral character class `[ivxlc]` with the `i`
flag. -/
def isRomanCI (c : Char) : Bool :=
  let l := c.toLower
  l = 'i' || l = 'v' || l = 'x' || l = 'l' || l = 'c'

/-- Digit test. -/
def isDigitChar (c : Char) : Bool := '0' ≤ c && c ≤ '9'

/-- JS `a || b` on strings (empty string is falsy). -/
def orElseStr (a b : Str) : Str := if a.isEmpty then b else a

/-- One match attempt of `/\barticle\s+[ivxlc]+\b[^\n]{0,120}/i` at the head
of `s` (the `\b` before `article` is checked by the caller).  Greedy classes
with the boundary check after the roman run, exactly as the backtracking
engine resolves this pattern. -/
def tryArticleHere (s : Str) : Option Str :=
  if ciIsPrefix "article".data s then
    let rest := s.drop 7
    let run := rest.takeWhile isWs
    if run.isEmpty then none
    else
      let rest2 := rest.drop run.length
      let rom := rest2.takeWhile isRomanCI
      if rom.isEmpty then none
      else
        let rest3 := rest2.drop rom.length
        let bOk := match rest3 with
          | [] => true
          | c :: _ => !isWordChar c
        if bOk then
          let tail := (rest3.takeWhile (fun c => !(c == '\n'))).take 120
          some (s.take (7 + run.length + rom.length + tail.length))
        else none
  else none

/-- Left-to-right scan for the first match of the article-title pattern; the
flag records whether the previous character was a word character (for the
leading `\b`). -/
def scanArticle (prevWord : Bool) : Str → Option Str
  | [] => none
  | c :: r =>
    match if !prevWord then tryArticleHere (c :: r) else none with
    | some m => some m
    | none => scanArticle (isWordChar c) r

/-- The `detectArticleTitle` helper of part_007 lines 94-97: first match of
`/\barticle\s+[ivxlc]+\b[^\n]{0,120}/i`, trimmed and whitespace-collapsed. -/
def detectArticleTitle (slice : Str) : Option Str :=
  (scanArticle false slice).map collapseWsTrim

/-- The `pageStartSlice` helper of part_007 line 93. -/
def pageStartSlice (text : Str) : Str := normS (text.take 900)

/-- A document page: 1-based page number plus extracted text. -/
structure Page where
  num : Nat
  text : Str
deriving DecidableEq, Repr

/-- An article range `{start, end, title}`; the JS `end` field is called
`stop` here (`end` is a Lean keyword). -/
structure ArticleRange where
  start : Nat
  stop : Nat
  title : Str
deriving DecidableEq, Repr

/-- A detected heading start before range construction. -/
structure ArticleStart where
  page : Nat
  title : Str
deriving DecidableEq, Repr

/-- JS `head.replace(/^article\s+/i, m => m.toUpperCase())` (part_007 line
102). -/
def upperHead (h : Str) : Str :=
  if ciIsPrefix "article".data h then
    let rest := h.drop 7
    let run := rest.takeWhile isWs
    if run.isEmpty then h
    else (h.take (7 + run.length)).map Char.toUpper ++ rest.drop run.length
  else h

/-- JS `title.replace(/^ARTICLE\s+/i, "")` (part_007 line 109). -/
def stripArtHead (t : Str) : Str :=
  if ciIsPrefix "article".data t then
    let rest := t.drop 7
    let run := rest.takeWhile isWs
    if run.isEmpty then t else rest.drop run.length
  else t

/-- Range title construction of part_007 line 109. -/
def mkRangeTitle (t : Str) : Str := trimStr ("Article ".data ++ stripArtHead t)

/-- Stable insertion into an ascending-by-key list (modern JS `sort` is
stable; an earlier element precedes later elements with an equal key). -/
def insAsc {α : Type} (key : α → Nat) (a : α) : List α → List α
  | [] => [a]
  | b :: l => if key a ≤ key b then a :: b :: l else b :: insAsc key a l

/-- Stable ascending sort by a natural key (JS `sort((x,y) => k x - k y)`). -/
def sortAsc {α : Type} (key : α → Nat) (l : List α) : List α := l.foldr (insAsc key) []

/-- Stable insertion into a descending-by-key list. -/
def insDesc {α : Type} (key : α → ℚ) (a : α) : List α → List α
  | [] => [a]
  | b :: l => if key b ≤ key a then a :: b :: l else b :: insDesc key a l

/-- Stable descending sort by a rational key (JS `sort((x,y) => k y - k x)`). -/
def sortDesc {α : Type} (key : α → ℚ) (l : List α) : List α := l.foldr (insDesc key) []

/-- Detected `(page, heading)` pairs of part_007 lines 99-103. -/
def articleStarts (pages : List Page) : List ArticleStart :=
  pages.filterMap (fun p =>
    (detectArticleTitle (pageStartSlice p.text)).map (fun head => ⟨p.num, upperHead head⟩))

/-- Range construction loop of part_007 lines 105-110: each start opens a
range ending one page before the next start, the last range ending at the
last page's number. -/
def rangesFromStarts : List ArticleStart → Nat → List ArticleRange
  | [], _ => []
  | [s], lastNum => [⟨s.page, lastNum, mkRangeTitle s.title⟩]
  | s :: s2 :: rest, lastNum =>
    ⟨s.page, s2.page - 1, mkRangeTitle s.title⟩ :: rangesFromStarts (s2 :: rest) lastNum

/-- The `buildArticleRanges` function of part_007 lines 98-112.  The last
page's number is only consulted when at least one heading was detected, hence
the harmless default 0 on an empty page list. -/
def buildArticleRanges (pages : List Page) : List ArticleRange :=
  let starts := sortAsc (fun s => s.page) (articleStarts pages)
  rangesFromStarts starts ((pages.getLast?.map (fun p => p.num)).getD 0)

/-- The `rangeForPage` helper of part_007 line 113. -/
def rangeForPage (ranges : List ArticleRange) (page : Nat) : Option ArticleRange :=
  ranges.find? (fun r => decide (r.start ≤ page) && decide (page ≤ r.stop))

/-- One match attempt of `/article\s+([ivxlc]+)/i` (no word boundaries) at
the head of `s`, returning the captured roman run. -/
def tryRomanHere (s : Str) : Option Str :=
  if ciIsPrefix "article".data s then
    let rest := s.drop 7
    let run := rest.takeWhile isWs
    if run.isEmpty then none
    else
      let rom := (rest.drop run.length).takeWhile isRomanCI
      if rom.isEmpty then none else some rom
  else none

/-- First match of `/article\s+([ivxlc]+)/i` anywhere in `s`. -/
def scanRoman : Str → Option Str
  | [] => none
  | c :: r =>
    match tryRomanHere (c :: r) with
    | some rom => some rom
    | none => scanRoman r

/-- The `rangeForArticleLabel` helper of part_007 lines 114-118. -/
def rangeForArticleLabel (ranges : List ArticleRange) (label : Str) : Option ArticleRange :=
  match scanRoman label with
  | none => none
  | some rom =>
    ranges.find? (fun r => ("article ".data ++ jsLower rom).isPrefixOf (jsLower r.title))

/-- A located quote: page number, char offset into the normalised page text,
and that page's text (part_007 line 150). -/
structure Hit where
  page : Nat
  idx : Nat
  text : Str
deriving DecidableEq, Repr

/-- Exact pass of the locator: first page whose normalised text contains the
normalised quote (part_007 lines 148-151). -/
def exactPass (quote : Str) (ps : List Page) : Option Hit :=
  ps.findSome? (fun p => (exactIndexOf p.text quote).map (fun i => ⟨p.num, i, p.text⟩))

/-- Fuzzy pass of the locator: first page with an accepted token-window match
(part_007 lines 153-157). -/
def fuzzyPass (quote : Str) (ps : List Page) : Option Hit :=
  ps.findSome? (fun p => (fuzzyBestIndex p.text quote).map (fun i => ⟨p.num, i, p.text⟩))

/-- Page-in-range test (part_007 line 145). -/
def inRange (r : ArticleRange) (p : Page) : Bool :=
  decide (r.start ≤ p.num) && decide (p.num ≤ r.stop)

/-- The `findQuoteOnPages` locator of part_007 lines 144-170: exact within
the preferred range, then fuzzy within it, then (only when a range was given)
exact and fuzzy over the whole document. -/
def findQuoteOnPages (quote : Str) (pages : List Page) (prefer : Option ArticleRange) :
    Option Hit :=
  let candidates := match prefer with
    | some r => pages.filter (inRange r)
    | none => pages
  match exactPass quote candidates with
  | some h => some h
  | none =>
    match fuzzyPass quote candidates with
    | some h => some h
    | none =>
      match prefer with
      | some _ =>
        match exactPass quote pages with
        | some h => some h
        | none => fuzzyPass quote pages
      | none => none

/-- A parsed `LEGAL_EXCERPTS` item (part_007 lines 80-88). -/
structure ExcerptItem where
  article : Str
  quote : Str
deriving DecidableEq, Repr

/-- Locate the block opener `/(?:^|\n)LEGAL_EXCERPTS:\s*\n/i` at the head of
`s` and return the remainder after the last newline of the whitespace run
following the colon (the greedy `\s*` backtracks to the last `\n`). -/
def tryLegalHere (s : Str) : Option Str :=
  if ciIsPrefix "legal_excerpts:".data s then
    let rest := s.drop 15
    let run := rest.takeWhile isWs
    if run.contains '\n' then
      some (rest.drop (run.length - (run.reverse.takeWhile (fun c => !(c == '\n'))).length))
    else none
  else none

/-- Scan for the first `LEGAL_EXCERPTS:` block opener at a line start. -/
def scanLegal (atLineStart : Bool) : Str → Option Str
  | [] => none
  | c :: r =>
    match if atLineStart then tryLegalHere (c :: r) else none with
    | some b => some b
    | none => scanLegal (c == '\n') r

/-- One match attempt of the item pattern
`/\d+\)\s*ARTICLE:\s*([^\n]+?)\s*\n\s*QUOTE:\s*"([^"]{12,400})"/gi` at the
head of `s`; on success returns the raw article line, the raw quote body and
the remainder after the match. -/
def matchItemHere (s : Str) : Option ((Str × Str) × Str) :=
  let ds := s.takeWhile isDigitChar
  if ds.isEmpty then none
  else
    match s.drop ds.length with
    | ')' :: s2 =>
      let s3 := s2.dropWhile isWs
      if ciIsPrefix "article:".data s3 then
        let s4 := (s3.drop 8).dropWhile isWs
        let artRaw := s4.takeWhile (fun c => !(c == '\n'))
        if artRaw.isEmpty then none
        else
          match s4.drop artRaw.length with
          | '\n' :: s6 =>
            let s7 := s6.dropWhile isWs
            if ciIsPrefix "quote:".data s7 then
              match (s7.drop 6).dropWhile isWs with
              | '"' :: s9 =>
                let q := s9.takeWhile (fun c => !(c == '"'))
                if decide (12 ≤ q.length) && decide (q.length ≤ 400) then
                  match s9.drop q.length with
                  | '"' :: s10 => some ((dropTrailWs artRaw, trimStr q), s10)
                  | _ => none
                else none
              | _ => none
            else none
          | _ => none
      else none
    | _ => none

/-- Fuelled scanner replaying `rxItem.exec` with the 4-item break of part_007
lines 82-88. -/
def scanItemsGo : Nat → Str → List ExcerptItem → List ExcerptItem
  | 0, _, acc => acc.reverse
  | fuel + 1, s, acc =>
    match matchItemHere s with
    | some ((a, q), rest) =>
      let acc2 := if a.isEmpty || q.isEmpty then acc else ⟨a, q⟩ :: acc
      if 4 ≤ acc2.length then acc2.reverse
      else scanItemsGo fuel rest acc2
    | none =>
      match s with
      | [] => acc.reverse
      | _ :: r => scanItemsGo fuel r acc

/-- The `parseLegalExcerpts` parser of part_007 lines 70-90. -/
def parseLegalExcerpts (answer : Str) : List ExcerptItem :=
  match scanLegal true answer with
  | none => []
  | some block => scanItemsGo (block.length + 1) block []

/-- Worker for `dedupFirst`, carrying the set of elements already seen. -/
def dedupSeen {α : Type} [DecidableEq α] : List α → List α → List α
  | _, [] => []
  | seen, a :: l => if a ∈ seen then dedupSeen seen l else a :: dedupSeen (a :: seen) l

/-- Keep the first occurrence of each element (JS `new Set([...])` iteration
order). -/
def dedupFirst {α : Type} [DecidableEq α] (l : List α) : List α := dedupSeen [] l

/-- Replace characters outside `[a-z0-9' -]` by a space (part_007 line 211,
part_008 line 585). -/
def replaceNonAlnumSp (s : Str) : Str := s.map (fun c => if keepStrip c then c else ' ')

/-- Indexed page of the light BM25 fallback (part_007 lines 210-213). -/
structure PageIdx where
  num : Nat
  text : Str
  toks : List Str
  len : Nat
  lower : Str
deriving DecidableEq, Repr

/-- Page index construction shared by part_007 lines 210-213 and
`buildPageIndex` of part_008 lines 582-591. -/
def mkPageIdx (p : Page) : PageIdx :=
  let lower := normS p.text
  let toks := (splitWs (replaceNonAlnumSp lower)).filter (fun w => !w.isEmpty)
  ⟨p.num, p.text, toks, toks.length, lower⟩

/-- Document frequency of a token over the index (pages whose token set
contains it). -/
def dfTok (idx : List PageIdx) (t : Str) : Nat :=
  (idx.filter (fun p => p.toks.contains t)).length

/-- Document frequency of a bigram over the index. -/
def dfBig (idx : List PageIdx) (bg : Str) : Nat :=
  (idx.filter (fun p => (bigramsS p.toks).contains bg)).length

/-- One BM25 term contribution with `k1 = 1.5`, `b = 0.75` and an explicit
weight (1 for unigrams, 1.5 for bigrams); zero when the document frequency or
the term frequency is zero, replaying the JS `continue`s. -/
def bmTermScore (idf : Nat → ℚ) (n tf : Nat) (len avgdl : ℚ) (weight : ℚ) : ℚ :=
  if n = 0 then 0
  else if tf = 0 then 0
  else
    let k1 : ℚ := 3 / 2
    let b : ℚ := 3 / 4
    let denom := (tf : ℚ) + k1 * (1 - b + b * (len / avgdl))
    weight * idf n * ((tf : ℚ) * (k1 + 1) / denom)

/-- BM25 score of one page against the query features (part_007 lines
228-234). -/
def pageScore7 (idf : Nat → ℚ) (idx : List PageIdx) (uniqT uniqB : List Str) (avgdl : ℚ)
    (p : PageIdx) : ℚ :=
  (uniqT.map (fun t => bmTermScore idf (dfTok idx t) (p.toks.count t) (p.len : ℚ) avgdl 1)).sum
    + (uniqB.map (fun bg =>
        bmTermScore idf (dfBig idx bg) ((bigramsS p.toks).count bg) (p.len : ℚ) avgdl
          (3 / 2))).sum

/-- The score list of the light BM25 fallback of part_007 lines 208-235,
sorted descending (stable, as modern JS `sort`).  The `Math.log`-based IDF is
abstracted as the function argument `idf`. -/
def bm25Scores (idf : Nat → ℚ) (pages : List Page) (question answer : Str) :
    List (Nat × ℚ) :=
  let idx := pages.map mkPageIdx
  let qTokens := tokenizeS (question ++ ' ' :: answer)
  let uniqT := dedupFirst qTokens
  let uniqB := dedupFirst (bigramsS qTokens)
  let n := idx.length
  let avgdl := ((idx.map (fun p => (p.len : ℚ))).sum) / (max 1 n : ℚ)
  sortDesc (fun x => x.2)
    (idx.map (fun p => (p.num, pageScore7 idf idx uniqT uniqB avgdl p)))

/-- The `slice(0,1)` of the sorted fallback scores (part_007 line 235). -/
def bm25Fallback (idf : Nat → ℚ) (pages : List Page) (question answer : Str) :
    Option (Nat × ℚ) :=
  (bm25Scores idf pages question answer).head?

/-- One source bullet before rendering: cited page, snippet, heading. -/
structure Bullet where
  page : Nat
  snip : Str
  heading : Str
deriving DecidableEq, Repr

/-- Bullet rendering of part_007 line 203. -/
def renderBullet (pdfHref : Str) (b : Bullet) : Str :=
  "• Page ".data ++ natStr b.page ++ " — [Open page](".data ++ pdfHref ++ "#page=".data
    ++ natStr b.page ++ ") — “".data ++ b.snip ++ "”".data
    ++ (if b.heading.isEmpty then [] else " — ".data ++ b.heading)

/-- Quote-resolution loop of part_007 lines 195-205: each of the first four
items is located (preferring its declared article range) and becomes a bullet
whose heading is `rng?.title || it.article || ""`. -/
def resolveItems (pages : List Page) (ranges : List ArticleRange) (items : List ExcerptItem) :
    List Bullet :=
  (items.take 4).filterMap (fun it =>
    let prefer := rangeForArticleLabel ranges it.article
    (findQuoteOnPages it.quote pages prefer).map (fun hit =>
      let heading := orElseStr
        (match rangeForPage ranges hit.page with
          | some r => r.title
          | none => [])
        (orElseStr it.article [])
      ⟨hit.page, snippetAround hit.text hit.idx, heading⟩))

/-- Fallback bullet of part_007 lines 237-244: the top BM25 page, quoted
around its middle, with heading `rng?.title || ""`. -/
def fallbackBullet (idf : Nat → ℚ) (pages : List Page) (ranges : List ArticleRange)
    (question answer : Str) : List Bullet :=
  match bm25Fallback idf pages question answer with
  | none => []
  | some w =>
    match pages.find? (fun x => x.num == w.1) with
    | none => []
    | some pg =>
      let heading := orElseStr
        (match rangeForPage ranges pg.num with
          | some r => r.title
          | none => [])
        []
      [⟨pg.num, snippetAround pg.text ((normS pg.text).length / 2), heading⟩]

/-- The bullet list `attachVerification` assembles (part_007 lines 191-245):
item resolution, then the BM25 fallback when nothing resolved. -/
def computeBullets (idf : Nat → ℚ) (pages : List Page) (answer question : Str) : List Bullet :=
  let ranges := buildArticleRanges pages
  let bullets := resolveItems pages ranges (parseLegalExcerpts answer)
  if bullets.isEmpty then fallbackBullet idf pages ranges question answer else bullets

/-- Scan for `/(?:^|\n)Citation:[\s\S]*$/i` after position zero and cut the
string at the first line starting with `Citation:` (the matched newline is
removed as well, as it is part of the JS match). -/
def cutCitationGo : Str → Str
  | [] => []
  | c :: r =>
    if c == '\n' && ciIsPrefix "citation:".data r then []
    else c :: cutCitationGo r

/-- The strip of part_007 line 253: delete everything from the first line
beginning (case-insensitively) with `Citation:` to the end. -/
def cutCitationJS (s : Str) : Str :=
  if ciIsPrefix "citation:".data s then [] else cutCitationGo s

/-- Citation line template of part_007 line 250. -/
def citationLine (pdfHref : Str) (heading : Str) (page : Nat) : Str :=
  "Citation: CBA (2022–2026)".data
    ++ (if heading.isEmpty then [] else ", ".data ++ heading)
    ++ "; Page ".data ++ natStr page ++ " — [Open page](".data ++ pdfHref ++ "#page=".data
    ++ natStr page ++ ")".data

/-- Join rendered bullets with newlines (JS `bullets.join("\n")`). -/
def joinNl (l : List Str) : Str := List.intercalate ['\n'] l

/-- Primary heading of part_007 line 249:
`rangeForPage(...)?.title || foundHits[0]?.heading || ""`. -/
def primaryHeading (ranges : List ArticleRange) (firstPage : Nat) (bullets : List Bullet) :
    Str :=
  orElseStr
    (match rangeForPage ranges firstPage with
      | some r => r.title
      | none => [])
    (orElseStr
      (match bullets.head? with
        | some b => b.heading
        | none => []) [])

/-- Final text assembly of part_007 line 254. -/
def assembleText (pdfHref base citation : Str) (bullets : List Bullet) : Str :=
  trimStr (base ++ "\n\n".data ++ citation ++ "\n\n—— Source text ——\n".data
    ++ joinNl (bullets.map (renderBullet pdfHref)))

/-- Scan for a newline followed (case-insensitively) by `citation:` strictly
inside `s`; used to state when the citation strip leaves a prefix intact. -/
def hasCiteLineIn : Str → Bool
  | [] => false
  | c :: r => (c == '\n' && ciIsPrefix "citation:".data r) || hasCiteLineIn r

/-- Result of `attachVerification`: the rewritten text and the primary page;
the bullet data the text is assembled from is kept as a third field so that
theorems can speak about the cited pages and snippets directly. -/
structure AttachResult where
  text : Str
  page : Nat
  bullets : List Bullet
deriving DecidableEq, Repr

/-- The `attachVerification` orchestrator of part_007 lines 180-257, with the
page store passed in (its loading is I/O) and the IDF function of the BM25
fallback abstracted.  The primary page is the first bullet's page: the JS
code re-parses it from the rendered bullet with `/Page\s+(\d+)/i`, whose
first match in a rendered bullet is by construction the `Page <n>` prefix. -/
def attachVerification (idf : Nat → ℚ) (pdfHref : Str) (pages : List Page)
    (answerText questionText : Str) : AttachResult :=
  let ranges := buildArticleRanges pages
  let bullets := computeBullets idf pages answerText questionText
  let firstPage := match bullets.head? with
    | some b => b.page
    | none => 1
  let citation := citationLine pdfHref (primaryHeading ranges firstPage bullets) firstPage
  let base := trimStr (cutCitationJS answerText)
  ⟨assembleText pdfHref base citation bullets, firstPage, bullets⟩

/-- Uppercase roman-numeral class `[IVXLC]` (case-sensitive). -/
def isUpperRoman (c : Char) : Bool := c = 'I' || c = 'V' || c = 'X' || c = 'L' || c = 'C'

/-- Lowercase roman-numeral class `[ivxlc]` (case-sensitive). -/
def isRomanLower (c : Char) : Bool := c = 'i' || c = 'v' || c = 'x' || c = 'l' || c = 'c'

/-- Title character class `[A-Za-z0-9 ,&/()'’\-]` of part_008 line 796. -/
def isTitleClassChar (c : Char) : Bool :=
  ('A' ≤ c && c ≤ 'Z') || ('a' ≤ c && c ≤ 'z') || ('0' ≤ c && c ≤ '9') || c = ' ' || c = ','
    || c = '&' || c = '/' || c = '(' || c = ')' || c = '\'' || c = '’' || c = '-'

/-- One match attempt of the case-sensitive heading pattern
`/\bARTICLE\s+([IVXLC]+)\s*[—-]\s*([A-Z][A-Za-z0-9 ,&/()'’\-]{3,})/` at the
head of `s` (part_008 line 796), returning the rebuilt title
`ARTICLE <roman>—<collapsed group 2>`. -/
def tryMainTitleHere (s : Str) : Option Str :=
  if "ARTICLE".data.isPrefixOf s then
    let rest := s.drop 7
    let run := rest.takeWhile isWs
    if run.isEmpty then none
    else
      let rest2 := rest.drop run.length
      let rom := rest2.takeWhile isUpperRoman
      if rom.isEmpty then none
      else
        match (rest2.drop rom.length).dropWhile isWs with
        | d :: rest4 =>
          if d == '—' || d == '-' then
            match rest4.dropWhile isWs with
            | a :: rest6 =>
              if 'A' ≤ a && a ≤ 'Z' then
                let cls := rest6.takeWhile isTitleClassChar
                if 3 ≤ cls.length then
                  some ("ARTICLE ".data ++ rom.map Char.toUpper ++ '—'
                    :: collapseWsTrim (a :: cls))
                else none
              else none
            | [] => none
          else none
        | [] => none
  else none

/-- Scan for the first match of the main-title pattern, tracking the word
boundary before `ARTICLE`. -/
def scanMainTitle (prevWord : Bool) : Str → Option Str
  | [] => none
  | c :: r =>
    match if !prevWord then tryMainTitleHere (c :: r) else none with
    | some m => some m
    | none => scanMainTitle (isWordChar c) r

/-- The `detectMainTitleTop` detector of part_008 lines 794-799: the dash-
and-title heading pattern applied to the leading 900 characters only. -/
def detectMainTitleTop (text : Str) : Option Str := scanMainTitle false (text.take 900)

/-- Range construction of part_008 lines 807-813 (titles kept verbatim). -/
def rangesFromStartsT : List ArticleStart → Nat → List ArticleRange
  | [], _ => []
  | [s], lastNum => [⟨s.page, lastNum, s.title⟩]
  | s :: s2 :: rest, lastNum =>
    ⟨s.page, s2.page - 1, s.title⟩ :: rangesFromStartsT (s2 :: rest) lastNum

/-- The `buildArticleRanges` function of part_008 lines 800-814 (the
`detectMainTitleTop` based variant). -/
def buildArticleRangesT (pages : List Page) : List ArticleRange :=
  let starts := sortAsc (fun s => s.page)
    (pages.filterMap (fun p =>
      (detectMainTitleTop p.text).map (fun t => ArticleStart.mk p.num t)))
  rangesFromStartsT starts ((pages.getLast?.map (fun p => p.num)).getD 0)

/-- JS `quote.replace(/\.\.\./g, " ")`. -/
def replaceEllipsis : Str → Str
  | '.' :: '.' :: '.' :: r => ' ' :: replaceEllipsis r
  | c :: r => c :: replaceEllipsis r
  | [] => []

/-- The `fuzzyIndex` locator of part_008 lines 857-874: like
`fuzzyBestIndex` but with ellipses blanked, punctuation replaced by spaces
rather than deleted, no stopword or length filtering of the quote tokens, and
window cap 46. -/
def fuzzyIndexT (hay quote : Str) : Option Nat :=
  let H := replaceNonAlnumSp (normS hay)
  let Q := replaceNonAlnumSp (normS (replaceEllipsis quote))
  let qToks := (splitWs Q).filter (fun w => !w.isEmpty)
  if qToks.isEmpty then none
  else
    let hToks := (splitWs H).filter (fun w => !w.isEmpty)
    let win := max 6 (min (qToks.length + 6) 46)
    let best := bestWindow qToks hToks win
    if best.2 < ceil55 qToks.length then none
    else some (List.intercalate [' '] (hToks.take best.1)).length

/-- One existence check of `/article\s+[ivxlc]+\b/` (case-sensitive, no
leading boundary) at the head of `s`: since every shorter roman run is
followed by a word character, the boundary holds iff it holds after the
maximal run. -/
def tryArtLooseHere (s : Str) : Bool :=
  if "article".data.isPrefixOf s then
    let rest := s.drop 7
    let run := rest.takeWhile isWs
    if run.isEmpty then false
    else
      let body := rest.drop run.length
      let rom := body.takeWhile isRomanLower
      if rom.isEmpty then false
      else
        match body.drop rom.length with
        | [] => true
        | c :: _ => !isWordChar c
  else false

/-- Existence test of `/article\s+[ivxlc]+\b/` (part_008 line 637). -/
def testArtLoose : Str → Bool
  | [] => false
  | c :: r => tryArtLooseHere (c :: r) || testArtLoose r

/-- Section identifier class `[a-z0-9().-]` of part_008 line 638. -/
def isSecClassChar (c : Char) : Bool :=
  ('a' ≤ c && c ≤ 'z') || ('0' ≤ c && c ≤ '9') || c = '(' || c = ')' || c = '.' || c = '-'

/-- JS `\b`: the position between `last` and `next` is a word boundary. -/
def boundaryOk (last : Char) (next : Option Char) : Bool :=
  match next with
  | none => isWordChar last
  | some n => isWordChar last != isWordChar n

/-- One existence check of `/\bsection\s+[a-z0-9().-]+\b/` at the head of
`s` (the leading boundary is the caller's): the backtracking engine accepts
iff some nonempty class-prefix ends at a word boundary. -/
def trySectionHere (s : Str) : Bool :=
  if "section".data.isPrefixOf s then
    let rest := s.drop 7
    let run := rest.takeWhile isWs
    if run.isEmpty then false
    else
      let body := rest.drop run.length
      let cls := body.takeWhile isSecClassChar
      (List.range cls.length).any (fun j =>
        boundaryOk ((cls.get? j).getD ' ') (body.get? (j + 1)))
  else false

/-- Existence test of `/\bsection\s+[a-z0-9().-]+\b/` (part_008 line 638). -/
def testSection (prevWord : Bool) : Str → Bool
  | [] => false
  | c :: r =>
    (if !prevWord then trySectionHere (c :: r) else false) || testSection (isWordChar c) r

/-- The `bm25Score` ranker of part_008 lines 602-647: BM25 with `k1 = 1.5`,
`b = 0.75`, bigrams weighted 1.5x, structure bonuses 0.8 and 0.6, the hard
rare-term gate pinning gateless pages to -10^9, and the keep rule
(at least 45 percent of the top score, at most 6, scores above -10^8).  The
`Math.log`-based IDF is the function argument `idf`; the JS float literals
0.45, 0.8, 0.6 are the exact rationals they denote. -/
def bm25Score (idf : Nat → ℚ) (idx : List PageIdx) (queryTokens queryBigrams : List Str) :
    List (Nat × ℚ) :=
  let uniqT := dedupFirst queryTokens
  let uniqB := dedupFirst queryBigrams
  let n := idx.length
  let avgdl := ((idx.map (fun p => (p.len : ℚ))).sum) / (max 1 n : ℚ)
  let gated := (sortDesc (fun t => idf (dfTok idx t)) uniqT).take 2
  let scoreOf := fun (p : PageIdx) =>
    if gated.any (fun g => !g.isEmpty && containsSub g p.lower) then
      (uniqT.map (fun t =>
        bmTermScore idf (dfTok idx t) (p.toks.count t) (p.len : ℚ) avgdl 1)).sum
        + (uniqB.map (fun bg =>
            bmTermScore idf (dfBig idx bg) ((bigramsS p.toks).count bg) (p.len : ℚ) avgdl
              (3 / 2))).sum
        + (if testArtLoose p.lower then 4 / 5 else 0)
        + (if testSection false p.lower then 3 / 5 else 0)
    else -(1000000000 : ℚ)
  let scores := sortDesc (fun x => x.2) (idx.map (fun p => (p.num, scoreOf p)))
  let top : ℚ := match scores.head? with
    | some x => x.2
    | none => -(1000000000 : ℚ)
  ((scores.filter (fun x => decide (top * (9 / 20) ≤ x.2))).take 6).filter
    (fun x => decide (-(100000000 : ℚ) < x.2))

/-- The average document length of the Trust-variant BM25 (part_008 line
612). -/
def bm25Avgdl (idx : List PageIdx) : ℚ :=
  ((idx.map (fun p => (p.len : ℚ))).sum) / (max 1 idx.length : ℚ)

/-- The 1-2 highest-IDF query tokens of part_008 lines 614-616 (`gated`):
the unique query tokens sorted by descending IDF, first two kept. -/
def bm25Gated (idf : Nat → ℚ) (idx : List PageIdx) (queryTokens : List Str) : List Str :=
  (sortDesc (fun t => idf (dfTok idx t)) (dedupFirst queryTokens)).take 2

/-- The per-page score of part_008 lines 618-641: `-1e9` when the page's
lowercased text contains none of the gated rare tokens, otherwise the BM25
sum over unigrams (weight 1) and bigrams (weight 1.5) plus the structural
heading bonuses 0.8 and 0.6. -/
def bm25ScoreOf (idf : Nat → ℚ) (idx : List PageIdx) (queryTokens queryBigrams : List Str)
    (p : PageIdx) : ℚ :=
  if (bm25Gated idf idx queryTokens).any (fun g => !g.isEmpty && containsSub g p.lower) then
    ((dedupFirst queryTokens).map (fun t =>
      bmTermScore idf (dfTok idx t) (p.toks.count t) (p.len : ℚ) (bm25Avgdl idx) 1)).sum
      + ((dedupFirst queryBigrams).map (fun bg =>
          bmTermScore idf (dfBig idx bg) ((bigramsS p.toks).count bg) (p.len : ℚ)
            (bm25Avgdl idx) (3 / 2))).sum
      + (if testArtLoose p.lower then 4 / 5 else 0)
      + (if testSection false p.lower then 3 / 5 else 0)
  else -(1000000000 : ℚ)

/-- The descending score list of part_008 line 643. -/
def bm25SortedScores (idf : Nat → ℚ) (idx : List PageIdx)
    (queryTokens queryBigrams : List Str) : List (Nat × ℚ) :=
  sortDesc (fun x => x.2)
    (idx.map (fun p => (p.num, bm25ScoreOf idf idx queryTokens queryBigrams p)))

/-- The top score of part_008 line 644 (`-1e9` when the index is empty). -/
def bm25Top (idf : Nat → ℚ) (idx : List PageIdx)
    (queryTokens queryBigrams : List Str) : ℚ :=
  match (bm25SortedScores idf idx queryTokens queryBigrams).head? with
  | some x => x.2
  | none => -(1000000000 : ℚ)

/-- A string is single-spaced: every whitespace character is a plain space
and no two spaces are adjacent.  The output of `collapseWs` has this shape,
and on such strings `splitWs` coincides with `splitOnSp`. -/
def SingleSp (s : Str) : Prop :=
  (∀ c ∈ s, isWs c = true → c = ' ') ∧ List.Chain' (fun a b => ¬(a = ' ' ∧ b = ' ')) s

instance : DecidablePred SingleSp := fun s => by
  unfold SingleSp
  infer_instance

/-- Number of `/\s+/` fields of a string, used to state word-count bounds. -/
def wordCount (s : Str) : Nat := (splitWs s).length

/-- Zero IDF function, used at inputs whose evaluation never reaches the
ranking fallback (or where every document frequency is zero). -/
def idfZero : Nat → ℚ := fun _ => 0

/-- Constant IDF function used for concrete ranking instances. -/
def idfOne : Nat → ℚ := fun _ => 1

/-- The default `pdfHref` argument of the JS `attachVerification`. -/
def hrefD : Str := "/mlb/MLB_CBA_2022.pdf".data

/-- Concrete page store for the quote-locator and rewriter instances: page 1
holds the first quote, page 2 the second. -/
def pagesAB : List Page :=
  [⟨1, "intro words alpha bravo charlie delta more words here".data⟩,
   ⟨2, "second page foxtrot golf hotel india closing words".data⟩]

/-- Answer whose excerpts block is interrupted by a `Citation:` line after
the first item, for the idempotence counterexample. -/
def ansSplit : Str :=
  ("intro\nLEGAL_EXCERPTS:\n1) ARTICLE: Article I\nQUOTE: \"alpha bravo charlie delta\""
    ++ "\nCitation: old\n2) ARTICLE: Article I\nQUOTE: \"foxtrot golf hotel india\"").data

/-- Well-formed answer (excerpts block before any citation line) for the
idempotence witness. -/
def ansGood : Str :=
  "intro words\nLEGAL_EXCERPTS:\n1) ARTICLE: Article I\nQUOTE: \"alpha bravo charlie delta\"".data

/-- Single page store on which no quote resolves. -/
def pagesMiss : List Page := [⟨1, "omega kappa sigma".data⟩]

/-- Answer whose single excerpt quote occurs on no page of `pagesMiss`. -/
def ansMiss : Str :=
  "ans\nLEGAL_EXCERPTS:\n1) ARTICLE: Article I\nQUOTE: \"alpha bravo charlie delta\"".data

/-- Answer whose excerpts block sits entirely after a `Citation:` line and
carries a distinctive article label. -/
def ansSecret : Str :=
  ("intro\nCitation: old stuff\nLEGAL_EXCERPTS:\n1) ARTICLE: SecretLabel"
    ++ "\nQUOTE: \"alpha bravo charlie delta\"").data

/-- Tail of `ansSecret` after its `Citation:` line marker. -/
def tailSecret : Str :=
  " old stuff\nLEGAL_EXCERPTS:\n1) ARTICLE: SecretLabel\nQUOTE: \"alpha bravo charlie delta\"".data

/-- Page store for the frame-effect instance. -/
def pagesOne : List Page := [⟨1, "context alpha bravo charlie delta end".data⟩]

/-- Heading page for the heading-precision instance. -/
def pageArt4 : Page := ⟨1, "ARTICLE IV—Player Qualifications".data⟩

/-- Body page whose only article mention is an inline cross-reference placed
beyond the 900-character top-of-page slice. -/
def pageXref : Page :=
  ⟨2, (List.replicate 181 "body ".data).flatten ++ "as defined in Article IV(B)".data⟩

/-- Ten-token quote for the threshold-boundary instance. -/
def quote10 : Str :=
  "alpha bravo charlie delta echo foxtrot golf hotel india juliet".data

/-- Haystack sharing exactly five of the ten quote tokens. -/
def hay5 : Str := "alpha bravo charlie delta echo zzz1 zzz2 zzz3 zzz4 zzz5".data

/-- Haystack sharing exactly six of the ten quote tokens. -/
def hay6 : Str := "alpha bravo charlie delta echo foxtrot zzz2 zzz3 zzz4 zzz5".data

/-- Pages for the heading-range counterexample: the document starts with a
headingless page, the single detected heading being on page 2. -/
def pagesLateHead : List Page :=
  [⟨1, "intro".data⟩, ⟨2, "article i pay".data⟩]

/-- Twenty-character word for the snippet-splitting instance. -/
def wordLong : Str := "abcdefghijklmnopqrst".data

/-- Page text of 43 twenty-character words (902 characters, single-spaced). -/
def textLong : Str := List.intercalate [' '] (List.replicate 43 wordLong)

/-- Index for the ranking instances: two pages, the second carrying the rare
term. -/
def pagesRank : List Page :=
  [⟨1, "common words fill this page with plain filler text".data⟩,
   ⟨2, "common words and the luxury threshold appear here".data⟩]

/-! ### String lemmas: trimming, single-spacing, field splitting -/

theorem dropTrailWs_isPref (x : Str) : dropTrailWs x <+: x := by
  have h : x.reverse.dropWhile isWs <:+ x.reverse := List.dropWhile_suffix _
  have h2 := List.reverse_prefix.mpr h
  simpa [dropTrailWs] using h2

theorem trimStr_substr (s : Str) : trimStr s <:+: s :=
  ((dropTrailWs_isPref (s.dropWhile isWs)).isInfix).trans (List.dropWhile_suffix _).isInfix

theorem SingleSp.tail {c : Char} {r : Str} (h : SingleSp (c :: r)) : SingleSp r :=
  ⟨fun x hx hw => h.1 x (List.mem_cons_of_mem _ hx) hw, h.2.tail⟩

theorem SingleSp.substr {s t : Str} (h : SingleSp t) (hinf : s <:+: t) : SingleSp s := by
  obtain ⟨pre, post, rfl⟩ := hinf
  refine ⟨fun c hc hw => h.1 c (by simp [hc]) hw, ?_⟩
  have h2 := h.2
  rw [List.append_assoc, List.chain'_append] at h2
  exact (List.chain'_append.mp h2.2.1).1

theorem head_dropWhile_false {p : Char → Bool} :
    ∀ {l : Str} {b : Char}, (l.dropWhile p).head? = some b → p b = false := by
  intro l
  induction l with
  | nil => intro b hb; simp [List.dropWhile] at hb
  | cons c r ih =>
    intro b hb
    by_cases hc : p c
    · rw [List.dropWhile_cons_of_pos hc] at hb; exact ih hb
    · rw [List.dropWhile_cons_of_neg hc] at hb
      simp only [List.head?_cons, Option.some.injEq] at hb
      subst hb
      exact Bool.of_not_eq_true hc

theorem mem_collapseWsGo_ws :
    ∀ {s : Str} {flag : Bool} {c : Char}, c ∈ collapseWsGo flag s → isWs c = true → c = ' ' := by
  intro s
  induction s with
  | nil => intro flag c hc; simp [collapseWsGo] at hc
  | cons d r ih =>
    intro flag c hc hw
    by_cases hd : isWs d = true
    · rw [collapseWsGo, if_pos hd] at hc
      cases flag with
      | true => exact ih (by simpa using hc) hw
      | false =>
        rw [if_neg (by simp)] at hc
        rcases List.mem_cons.mp hc with h | h
        · exact h
        · exact ih h hw
    · rw [collapseWsGo, if_neg hd] at hc
      rcases List.mem_cons.mp hc with h | h
      · subst h; exact absurd hw (by simpa using hd)
      · exact ih h hw

theorem head_collapseWsGo_true :
    ∀ {r : Str} {b : Char}, (collapseWsGo true r).head? = some b → isWs b = false := by
  intro r
  induction r with
  | nil => intro b hb; simp [collapseWsGo] at hb
  | cons d r2 ih =>
    intro b hb
    by_cases hd : isWs d = true
    · rw [collapseWsGo, if_pos hd] at hb
      exact ih hb
    · rw [collapseWsGo, if_neg hd] at hb
      simp only [List.head?_cons, Option.some.injEq] at hb
      subst hb
      simpa using hd

theorem chain'_collapseWsGo :
    ∀ (s : Str) (flag : Bool),
      List.Chain' (fun a b => ¬(a = ' ' ∧ b = ' ')) (collapseWsGo flag s) := by
  intro s
  induction s with
  | nil => intro flag; simp [collapseWsGo]
  | cons d r ih =>
    intro flag
    by_cases hd : isWs d = true
    · rw [collapseWsGo, if_pos hd]
      cases flag with
      | true => simpa using ih true
      | false =>
        rw [if_neg (by simp), List.chain'_cons']
        refine ⟨?_, ih true⟩
        intro y hy hcon
        have hyw : isWs y = false := head_collapseWsGo_true (by simpa using hy)
        rw [hcon.2] at hyw
        simp [isWs] at hyw
    · rw [collapseWsGo, if_neg hd]
      rw [List.chain'_cons']
      refine ⟨?_, ih false⟩
      intro y _ hcon
      have : isWs d = true := by rw [hcon.1]; simp [isWs]
      exact hd this

theorem singleSp_collapseWs (s : Str) : SingleSp (collapseWs s) :=
  ⟨fun c hc hw => mem_collapseWsGo_ws hc hw, chain'_collapseWsGo s false⟩

theorem singleSp_collapseWsTrim (s : Str) : SingleSp (collapseWsTrim s) :=
  (singleSp_collapseWs s).substr (trimStr_substr _)

theorem splitOnSp_ne_nil (s : Str) : splitOnSp s ≠ [] := by
  induction s with
  | nil => simp [splitOnSp]
  | cons c r ih =>
    rw [splitOnSp]
    split
    · simp
    · rcases h : splitOnSp r with _ | ⟨w, L⟩
      · exact absurd h ih
      · simp [List.modifyHead]

theorem splitWsGo_true_skip {d : Char} {r : Str} (hd : isWs d = false) :
    splitWsGo true (d :: r) = splitWsGo false (d :: r) := by
  rw [splitWsGo, if_neg (by simp [hd]), splitWsGo, if_neg (by simp [hd])]

theorem splitWs_eq_splitOnSp {s : Str} (h : SingleSp s) : splitWs s = splitOnSp s := by
  induction s with
  | nil => rfl
  | cons c r ih =>
    by_cases hc : isWs c = true
    · have hcsp : c = ' ' := h.1 c (by simp) hc
      have htail : splitWsGo true r = splitOnSp r := by
        cases r with
        | nil => rfl
        | cons d r2 =>
          have hd : isWs d = false := by
            by_contra hd
            have hd' : isWs d = true := by simpa using hd
            have hdsp : d = ' ' := h.1 d (by simp) hd'
            exact (List.chain'_cons.mp h.2).1 ⟨hcsp, hdsp⟩
          rw [splitWsGo_true_skip hd]
          exact ih h.tail
      rw [splitWs, splitWsGo, if_pos hc, if_neg (by simp), htail, splitOnSp, if_pos hcsp]
    · have hcsp : ¬ c = ' ' := by
        intro hcon
        exact hc (by simp [hcon, isWs])
      rw [splitWs, splitWsGo, if_neg hc, splitOnSp, if_neg hcsp]
      have : splitWsGo false r = splitOnSp r := ih h.tail
      rw [this]

theorem intercalate_singleton (sep x : Str) : List.intercalate sep [x] = x := by
  simp [List.intercalate, List.intersperse]

theorem intercalate_cons₂ (sep x y : Str) (L : List Str) :
    List.intercalate sep (x :: y :: L) = x ++ sep ++ List.intercalate sep (y :: L) := by
  simp [List.intercalate, List.intersperse]

theorem intercalate_splitOnSp (s : Str) : List.intercalate [' '] (splitOnSp s) = s := by
  induction s with
  | nil => simp [splitOnSp, intercalate_singleton]
  | cons c r ih =>
    rcases h : splitOnSp r with _ | ⟨w, L⟩
    · exact absurd h (splitOnSp_ne_nil r)
    · by_cases hc : c = ' '
      · subst hc
        rw [splitOnSp, if_pos rfl, h, intercalate_cons₂, ← h, ih]
        rfl
      · rw [splitOnSp, if_neg hc, h, List.modifyHead]
        cases L with
        | nil =>
          rw [intercalate_singleton]
          rw [h, intercalate_singleton] at ih
          rw [ih]
        | cons y L2 =>
          rw [intercalate_cons₂]
          rw [h, intercalate_cons₂] at ih
          rw [List.cons_append, List.cons_append, ih]

theorem modifyHead_append {α : Type} (f : α → α) (l m : List α) (hl : l ≠ []) :
    (l ++ m).modifyHead f = l.modifyHead f ++ m := by
  cases l with
  | nil => exact absurd rfl hl
  | cons a l2 => simp [List.modifyHead]

theorem splitOnSp_append_space (xs ys : Str) :
    splitOnSp (xs ++ ' ' :: ys) = splitOnSp xs ++ splitOnSp ys := by
  induction xs with
  | nil => simp [splitOnSp]
  | cons c r ih =>
    by_cases hc : c = ' '
    · rw [List.cons_append, splitOnSp, if_pos hc, ih, splitOnSp, if_pos hc]
      rw [List.cons_append]
    · rw [List.cons_append, splitOnSp, if_neg hc, ih, splitOnSp, if_neg hc]
      rw [modifyHead_append _ _ _ (splitOnSp_ne_nil r)]

theorem no_space_mem_splitOnSp {s : Str} : ∀ {w : Str}, w ∈ splitOnSp s → ' ' ∉ w := by
  induction s with
  | nil =>
    intro w hw
    simp only [splitOnSp, List.mem_singleton] at hw
    subst hw
    simp
  | cons c r ih =>
    intro w hw
    rw [splitOnSp] at hw
    split at hw
    · rcases List.mem_cons.mp hw with h | h
      · subst h; simp
      · exact ih h
    · next hc =>
      rcases hsp : splitOnSp r with _ | ⟨v, L⟩
      · exact absurd hsp (splitOnSp_ne_nil r)
      · rw [hsp, List.modifyHead] at hw
        rcases List.mem_cons.mp hw with h | h
        · subst h
          intro hmem
          rcases List.mem_cons.mp hmem with h2 | h2
          · exact hc h2.symm
          · exact ih (by rw [hsp]; exact List.mem_cons_self _ _) h2
        · exact ih (by rw [hsp]; exact List.mem_cons_of_mem _ h)

theorem splitOnSp_no_space {w : Str} (hw : ' ' ∉ w) : splitOnSp w = [w] := by
  induction w with
  | nil => simp [splitOnSp]
  | cons c r ih =>
    have hc : ¬ c = ' ' := fun hcon => hw (by simp [hcon])
    rw [splitOnSp, if_neg hc, ih (fun hmem => hw (List.mem_cons_of_mem _ hmem))]
    rfl

theorem splitOnSp_intercalate {L : List Str} (hne : L ≠ [])
    (hsp : ∀ w ∈ L, ' ' ∉ w) : splitOnSp (List.intercalate [' '] L) = L := by
  induction L with
  | nil => exact absurd rfl hne
  | cons w L2 ih =>
    cases L2 with
    | nil =>
      rw [intercalate_singleton]
      exact splitOnSp_no_space (hsp w (List.mem_cons_self _ _))
    | cons y L3 =>
      rw [intercalate_cons₂, List.append_assoc]
      have : w ++ (([' '] : Str) ++ List.intercalate [' '] (y :: L3))
          = w ++ ' ' :: List.intercalate [' '] (y :: L3) := by rfl
      rw [this, splitOnSp_append_space,
        splitOnSp_no_space (hsp w (List.mem_cons_self _ _)),
        ih (by simp) (fun v hv => hsp v (List.mem_cons_of_mem _ hv))]
      rfl

theorem intercalate_nil_eq (sep : Str) : List.intercalate sep [] = [] := by
  simp [List.intercalate, List.intersperse]

theorem intercalate_drop_suffix (sep : Str) (a : Nat) :
    ∀ l : List Str, List.intercalate sep (l.drop a) <:+ List.intercalate sep l := by
  induction a with
  | zero => intro l; simp
  | succ a ih =>
    intro l
    cases l with
    | nil => simp
    | cons x L =>
      rw [List.drop_succ_cons]
      refine (ih L).trans ?_
      cases L with
      | nil =>
        rw [intercalate_nil_eq]
        exact List.nil_suffix
      | cons y L2 =>
        rw [intercalate_cons₂]
        exact List.suffix_append _ _

theorem prefix_append_left {α : Type} {l₁ l₂ : List α} (x : List α) (h : l₁ <+: l₂) :
    x ++ l₁ <+: x ++ l₂ := by
  obtain ⟨t, ht⟩ := h
  exact ⟨t, by rw [List.append_assoc, ht]⟩

theorem intercalate_take_pref (sep : Str) :
    ∀ (l : List Str) (k : Nat), List.intercalate sep (l.take k) <+: List.intercalate sep l := by
  intro l
  induction l with
  | nil => intro k; simp
  | cons x L ih =>
    intro k
    cases k with
    | zero => simp [intercalate_nil_eq]
    | succ k =>
      rw [List.take_succ_cons]
      cases L with
      | nil => rw [List.take_nil]
      | cons y L2 =>
        cases hk : (y :: L2).take k with
        | nil =>
          have : k = 0 := by
            cases k with
            | zero => rfl
            | succ k2 => simp [List.take_succ_cons] at hk
          subst this
          rw [intercalate_singleton, intercalate_cons₂]
          exact (List.prefix_append x _).trans (by rw [List.append_assoc])
        | cons z L3 =>
          rw [intercalate_cons₂, ← hk, intercalate_cons₂]
          exact prefix_append_left _ (ih k)

theorem intercalate_slice_substr (sep : Str) (l : List Str) (a k : Nat) :
    List.intercalate sep ((l.drop a).take k) <:+: List.intercalate sep l :=
  (intercalate_take_pref sep (l.drop a) k).isInfix.trans
    (intercalate_drop_suffix sep a l).isInfix

theorem dropTrailWs_concat_noop {y : Str} {b : Char} (hb : isWs b = false) :
    dropTrailWs (y ++ [b]) = y ++ [b] := by
  rw [dropTrailWs, List.reverse_append]
  simp only [List.reverse_cons, List.reverse_nil, List.nil_append, List.cons_append]
  rw [List.dropWhile_cons_of_neg (by simp [hb])]
  simp

theorem dropTrailWs_concat_space {y : Str} (hy : y = [] ∨ ∃ z d, y = z ++ [d] ∧ isWs d = false) :
    dropTrailWs (y ++ [' ']) = y := by
  rcases hy with rfl | ⟨z, d, rfl, hd⟩
  · simp [dropTrailWs, List.dropWhile, isWs]
  · rw [dropTrailWs, List.reverse_append]
    simp only [List.reverse_cons, List.reverse_nil, List.nil_append, List.cons_append,
      List.reverse_append]
    rw [List.dropWhile_cons_of_pos (by simp [isWs])]
    rw [List.dropWhile_cons_of_neg (by simp [hd])]
    simp

theorem splitOnSp_dropTrailWs {u : Str} (h : SingleSp u) :
    splitOnSp (dropTrailWs u) = splitOnSp u ∨
      splitOnSp u = splitOnSp (dropTrailWs u) ++ [[]] := by
  rcases List.eq_nil_or_concat u with rfl | ⟨y, b, hu⟩
  · left; rw [dropTrailWs]; simp
  · rw [List.concat_eq_append] at hu
    subst hu
    by_cases hb : isWs b = true
    · have hbsp : b = ' ' := h.1 b (by simp) hb
      subst hbsp
      have hy : y = [] ∨ ∃ z d, y = z ++ [d] ∧ isWs d = false := by
        rcases List.eq_nil_or_concat y with rfl | ⟨z, d, hy0⟩
        · left; rfl
        · rw [List.concat_eq_append] at hy0
          subst hy0
          right
          refine ⟨z, d, rfl, ?_⟩
          by_contra hd
          have hd' : isWs d = true := by simpa using hd
          have hdsp : d = ' ' := h.1 d (by simp) hd'
          subst hdsp
          have h2 := h.2
          have h3 := (List.chain'_append.mp h2).2.2
          have hlast : (z ++ [' ']).getLast? = some ' ' := by
            simp [List.getLast?_append]
          exact h3 ' ' (by rw [hlast]; simp) ' ' (by simp) ⟨rfl, rfl⟩
      right
      rw [dropTrailWs_concat_space hy]
      have : y ++ [' '] = y ++ ' ' :: ([] : Str) := rfl
      rw [this, splitOnSp_append_space]
      rfl
    · left
      rw [dropTrailWs_concat_noop (by simpa using hb)]

theorem splitOnSp_dropWhile_front (s : Str) (h : SingleSp s) :
    splitOnSp (s.dropWhile isWs) = splitOnSp s ∨
      splitOnSp s = [] :: splitOnSp (s.dropWhile isWs) := by
  cases s with
  | nil => left; rfl
  | cons c r =>
    by_cases hc : isWs c = true
    · have hcsp : c = ' ' := h.1 c (by simp) hc
      right
      rw [List.dropWhile_cons_of_pos hc]
      have hdrop : r.dropWhile isWs = r := by
        cases r with
        | nil => rfl
        | cons d r2 =>
          have hd : isWs d = false := by
            by_contra hd
            have hd' : isWs d = true := by simpa using hd
            have hdsp : d = ' ' := h.1 d (by simp) hd'
            exact (List.chain'_cons.mp h.2).1 ⟨hcsp, hdsp⟩
          rw [List.dropWhile_cons_of_neg (by simp [hd])]
      rw [hdrop, splitOnSp, if_pos hcsp]
    · left
      rw [List.dropWhile_cons_of_neg (by simp at hc; simp [hc])]

theorem splitOnSp_trimStr_le {s : Str} (h : SingleSp s) :
    (splitOnSp (trimStr s)).length ≤ (splitOnSp s).length := by
  have hu : SingleSp (s.dropWhile isWs) := h.substr (List.dropWhile_suffix _).isInfix
  have h1 : (splitOnSp (s.dropWhile isWs)).length ≤ (splitOnSp s).length := by
    rcases splitOnSp_dropWhile_front s h with h1 | h1
    · rw [h1]
    · rw [h1]; simp
  have h2 : (splitOnSp (trimStr s)).length ≤ (splitOnSp (s.dropWhile isWs)).length := by
    rw [trimStr]
    rcases splitOnSp_dropTrailWs hu with h2 | h2
    · rw [h2]
    · rw [h2]
      simp
  exact h2.trans h1

theorem trimWords_substr {s : Str} (h : SingleSp s) (minW maxW : Nat) :
    trimWords s minW maxW <:+: s := by
  simp only [trimWords]
  split
  · exact trimStr_substr s
  · refine (trimStr_substr _).trans ?_
    rw [splitWs_eq_splitOnSp h]
    have h1 := intercalate_slice_substr [' '] (splitOnSp s)
      ((splitOnSp s).length / 2 - (max minW (min maxW 45)) / 2) (max minW (min maxW 45))
    rw [intercalate_splitOnSp s] at h1
    exact h1

theorem wordCount_trim_intercalate_le {s : Str} (h : SingleSp s) (a k : Nat) (hk : k ≤ 45)
    (hne : ((splitOnSp s).drop a).take k ≠ []) :
    (splitWs (trimStr (List.intercalate [' '] (((splitOnSp s).drop a).take k)))).length ≤ 45 := by
  have hFsub : ∀ w ∈ ((splitOnSp s).drop a).take k, ' ' ∉ w := by
    intro w hw
    exact no_space_mem_splitOnSp (List.drop_subset _ _ (List.take_subset _ _ hw))
  have hJ := splitOnSp_intercalate hne hFsub
  have hJinf : List.intercalate [' '] (((splitOnSp s).drop a).take k) <:+: s := by
    have h1 := intercalate_slice_substr [' '] (splitOnSp s) a k
    rw [intercalate_splitOnSp s] at h1
    exact h1
  have hJss : SingleSp (List.intercalate [' '] (((splitOnSp s).drop a).take k)) :=
    h.substr hJinf
  have htr := hJss.substr (trimStr_substr _)
  rw [splitWs_eq_splitOnSp htr]
  have h2 := splitOnSp_trimStr_le hJss
  rw [hJ] at h2
  exact h2.trans ((List.length_take_le _ _).trans hk)

theorem wordCount_trimWords_le {s : Str} (h : SingleSp s) :
    wordCount (trimWords s 25 45) ≤ 45 := by
  rw [wordCount]
  simp only [trimWords]
  split
  · next hle =>
    have htr : SingleSp (trimStr s) := h.substr (trimStr_substr s)
    rw [splitWs_eq_splitOnSp htr]
    refine (splitOnSp_trimStr_le h).trans ?_
    rw [← splitWs_eq_splitOnSp h]
    exact hle
  · next hgt =>
    rw [splitWs_eq_splitOnSp h] at hgt ⊢
    apply wordCount_trim_intercalate_le h
    · norm_num
    · intro hcon
      have hlen := congrArg List.length hcon
      rw [List.length_take, List.length_drop] at hlen
      simp only [List.length_nil] at hlen
      omega

theorem snippetAround_substr (text : Str) (idx : Nat) :
    snippetAround text idx <:+: collapseWsTrim text := by
  simp only [snippetAround]
  have hslice : ((collapseWsTrim text).drop (idx - 260)).take
      (min (collapseWsTrim text).length (idx + 280) - (idx - 260)) <:+: collapseWsTrim text :=
    ((List.take_prefix _ _).isInfix).trans (List.drop_suffix _ _).isInfix
  exact (trimWords_substr ((singleSp_collapseWsTrim text).substr hslice) 25 45).trans hslice

theorem wordCount_snippetAround_le (text : Str) (idx : Nat) :
    wordCount (snippetAround text idx) ≤ 45 := by
  simp only [snippetAround]
  have hslice : ((collapseWsTrim text).drop (idx - 260)).take
      (min (collapseWsTrim text).length (idx + 280) - (idx - 260)) <:+: collapseWsTrim text :=
    ((List.take_prefix _ _).isInfix).trans (List.drop_suffix _ _).isInfix
  exact wordCount_trimWords_le ((singleSp_collapseWsTrim text).substr hslice)

/-! ### Locator lemmas -/

theorem exactPass_some {quote : Str} {ps : List Page} {h : Hit}
    (hh : exactPass quote ps = some h) :
    ∃ p ∈ ps, p.num = h.page ∧ p.text = h.text ∧ exactIndexOf p.text quote = some h.idx := by
  obtain ⟨p, hp, hf⟩ := List.exists_of_findSome?_eq_some hh
  rw [Option.map_eq_some'] at hf
  obtain ⟨i, hi, rfl⟩ := hf
  exact ⟨p, hp, rfl, rfl, hi⟩

theorem fuzzyPass_some {quote : Str} {ps : List Page} {h : Hit}
    (hh : fuzzyPass quote ps = some h) :
    ∃ p ∈ ps, p.num = h.page ∧ p.text = h.text ∧ fuzzyBestIndex p.text quote = some h.idx := by
  obtain ⟨p, hp, hf⟩ := List.exists_of_findSome?_eq_some hh
  rw [Option.map_eq_some'] at hf
  obtain ⟨i, hi, rfl⟩ := hf
  exact ⟨p, hp, rfl, rfl, hi⟩

theorem exactPass_isSome {quote : Str} {ps : List Page}
    (hex : ∃ p ∈ ps, (exactIndexOf p.text quote).isSome) : (exactPass quote ps).isSome := by
  obtain ⟨p, hp, hi⟩ := hex
  rcases hcase : exactPass quote ps with _ | h
  · rw [exactPass, List.findSome?_eq_none_iff] at hcase
    have := hcase p hp
    rcases hidx : exactIndexOf p.text quote with _ | i
    · rw [hidx] at hi; simp at hi
    · rw [hidx] at this; simp at this
  · simp

theorem findQuote_prefer_eq (quote : Str) (pages : List Page) (r : ArticleRange) :
    findQuoteOnPages quote pages (some r) =
      ((exactPass quote (pages.filter (inRange r))).orElse
        (fun _ => (fuzzyPass quote (pages.filter (inRange r))).orElse
          (fun _ => (exactPass quote pages).orElse
            (fun _ => fuzzyPass quote pages)))) := by
  rw [findQuoteOnPages.eq_def]
  dsimp only
  rcases h1 : exactPass quote (pages.filter (inRange r)) with _ | v1 <;>
    rcases h2 : fuzzyPass quote (pages.filter (inRange r)) with _ | v2 <;>
    rcases h3 : exactPass quote pages with _ | v3 <;>
    rcases h4 : fuzzyPass quote pages with _ | v4 <;>
    simp [Option.orElse]

theorem findQuote_none_eq (quote : Str) (pages : List Page) :
    findQuoteOnPages quote pages none =
      (exactPass quote pages).orElse (fun _ => fuzzyPass quote pages) := by
  rw [findQuoteOnPages.eq_def]
  dsimp only
  rcases h1 : exactPass quote pages with _ | v1 <;>
    rcases h2 : fuzzyPass quote pages with _ | v2 <;>
    simp [Option.orElse]

theorem findQuoteOnPages_some {quote : Str} {pages : List Page} {prefer : Option ArticleRange}
    {h : Hit} (hh : findQuoteOnPages quote pages prefer = some h) :
    ∃ p ∈ pages, p.num = h.page ∧ p.text = h.text ∧
      (exactIndexOf p.text quote = some h.idx ∨ fuzzyBestIndex p.text quote = some h.idx) := by
  rcases prefer with _ | r
  · rw [findQuote_none_eq] at hh
    rcases h1 : exactPass quote pages with _ | v1 <;> rw [h1] at hh <;>
      simp only [Option.orElse] at hh
    · obtain ⟨p, hp, e1, e2, e3⟩ := fuzzyPass_some hh
      exact ⟨p, hp, e1, e2, Or.inr e3⟩
    · simp only [Option.some.injEq] at hh
      subst hh
      obtain ⟨p, hp, e1, e2, e3⟩ := exactPass_some h1
      exact ⟨p, hp, e1, e2, Or.inl e3⟩
  · rw [findQuote_prefer_eq] at hh
    rcases h1 : exactPass quote (pages.filter (inRange r)) with _ | v1 <;> rw [h1] at hh <;>
      simp only [Option.orElse] at hh
    · rcases h2 : fuzzyPass quote (pages.filter (inRange r)) with _ | v2 <;> rw [h2] at hh <;>
        simp only [Option.orElse] at hh
      · rcases h3 : exactPass quote pages with _ | v3 <;> rw [h3] at hh <;>
          simp only [Option.orElse] at hh
        · obtain ⟨p, hp, e1, e2, e3⟩ := fuzzyPass_some hh
          exact ⟨p, hp, e1, e2, Or.inr e3⟩
        · simp only [Option.some.injEq] at hh
          subst hh
          obtain ⟨p, hp, e1, e2, e3⟩ := exactPass_some h3
          exact ⟨p, hp, e1, e2, Or.inl e3⟩
      · simp only [Option.some.injEq] at hh
        subst hh
        obtain ⟨p, hp, e1, e2, e3⟩ := fuzzyPass_some h2
        exact ⟨p, (List.mem_filter.mp hp).1, e1, e2, Or.inr e3⟩
    · simp only [Option.some.injEq] at hh
      subst hh
      obtain ⟨p, hp, e1, e2, e3⟩ := exactPass_some h1
      exact ⟨p, (List.mem_filter.mp hp).1, e1, e2, Or.inl e3⟩

/-- C2: the Quote Locator applies its passes in strict order: exact then
fuzzy inside the preferred range, then exact then fuzzy over the whole
document but only when a preferred range was given, each pass consulted only
when every earlier pass returned nothing; and whenever some page of the
searched pool contains the quote verbatim (after normalisation), the result
is that exact occurrence, never a fuzzy match. -/
theorem C2_locator_layered_policy :
    (∀ (quote : Str) (pages : List Page) (r : ArticleRange),
      findQuoteOnPages quote pages (some r) =
        ((exactPass quote (pages.filter (inRange r))).orElse
          (fun _ => (fuzzyPass quote (pages.filter (inRange r))).orElse
            (fun _ => (exactPass quote pages).orElse
              (fun _ => fuzzyPass quote pages)))))
    ∧ (∀ (quote : Str) (pages : List Page),
      findQuoteOnPages quote pages none =
        (exactPass quote pages).orElse (fun _ => fuzzyPass quote pages))
    ∧ (∀ (quote : Str) (pages : List Page),
      (∃ p ∈ pages, (exactIndexOf p.text quote).isSome) →
      ∃ h, findQuoteOnPages quote pages none = some h ∧
        exactIndexOf h.text quote = some h.idx ∧
        ∃ p ∈ pages, p.num = h.page ∧ p.text = h.text) := by
  refine ⟨findQuote_prefer_eq, findQuote_none_eq, ?_⟩
  intro quote pages hex
  have hsome := exactPass_isSome hex
  rcases h1 : exactPass quote pages with _ | h1v
  · rw [h1] at hsome; simp at hsome
  · refine ⟨h1v, ?_, ?_, ?_⟩
    · rw [findQuote_none_eq, h1]
      rfl
    · obtain ⟨p, _, _, e2, e3⟩ := exactPass_some h1
      rw [← e2]
      exact e3
    · obtain ⟨p, hp, e1, e2, _⟩ := exactPass_some h1
      exact ⟨p, hp, e1, e2⟩

/-- Witness for C2 at a concrete store: the first quote of `pagesAB` is
exact-located on page 1. -/
theorem C2_locator_layered_policy_witness :
    ∃ h, findQuoteOnPages "alpha bravo charlie delta".data pagesAB none = some h ∧
      exactIndexOf h.text "alpha bravo charlie delta".data = some h.idx ∧
      ∃ p ∈ pagesAB, p.num = h.page ∧ p.text = h.text :=
  C2_locator_layered_policy.2.2 "alpha bravo charlie delta".data pagesAB
    ⟨⟨1, "intro words alpha bravo charlie delta more words here".data⟩, by decide, by decide⟩

/-! ### Sorting lemmas -/

theorem insDesc_perm {α : Type} (key : α → ℚ) (a : α) (l : List α) :
    (insDesc key a l).Perm (a :: l) := by
  induction l with
  | nil => exact List.Perm.refl _
  | cons b l ih =>
    rw [insDesc]
    split
    · exact List.Perm.refl _
    · exact (List.Perm.cons b ih).trans (List.Perm.swap a b l)

theorem sortDesc_perm {α : Type} (key : α → ℚ) (l : List α) : (sortDesc key l).Perm l := by
  induction l with
  | nil => exact List.Perm.refl _
  | cons a l ih => exact (insDesc_perm key a (sortDesc key l)).trans (List.Perm.cons a ih)

theorem insDesc_pairwise {α : Type} {key : α → ℚ} {a : α} {l : List α}
    (h : List.Pairwise (fun x y => key y ≤ key x) l) :
    List.Pairwise (fun x y => key y ≤ key x) (insDesc key a l) := by
  induction l with
  | nil => simp [insDesc]
  | cons b l ih =>
    rw [insDesc]
    split
    · next hba =>
      rw [List.pairwise_cons]
      refine ⟨?_, h⟩
      intro y hy
      rcases List.mem_cons.mp hy with rfl | hy
      · exact hba
      · exact ((List.pairwise_cons.mp h).1 y hy).trans hba
    · next hba =>
      rw [List.pairwise_cons]
      refine ⟨?_, ih (List.pairwise_cons.mp h).2⟩
      intro y hy
      have hy2 := (insDesc_perm key a l).mem_iff.mp hy
      rcases List.mem_cons.mp hy2 with rfl | hy2
      · exact le_of_lt (lt_of_not_le hba)
      · exact (List.pairwise_cons.mp h).1 y hy2

theorem sortDesc_pairwise {α : Type} (key : α → ℚ) (l : List α) :
    List.Pairwise (fun x y => key y ≤ key x) (sortDesc key l) := by
  induction l with
  | nil => simp [sortDesc]
  | cons a l ih => exact insDesc_pairwise ih

/-! ### Fallback-ranking lemmas -/

theorem bm25Scores_length (idf : Nat → ℚ) (pages : List Page) (question answer : Str) :
    (bm25Scores idf pages question answer).length = pages.length := by
  simp only [bm25Scores]
  rw [(sortDesc_perm _ _).length_eq]
  simp

theorem bm25Scores_mem {idf : Nat → ℚ} {pages : List Page} {question answer : Str}
    {w : Nat × ℚ} (hw : w ∈ bm25Scores idf pages question answer) :
    ∃ p ∈ pages, p.num = w.1 := by
  simp only [bm25Scores] at hw
  have hmem := (sortDesc_perm _ _).mem_iff.mp hw
  obtain ⟨q, hq, hfq⟩ := List.mem_map.mp hmem
  obtain ⟨p, hp, hpq⟩ := List.mem_map.mp hq
  refine ⟨p, hp, ?_⟩
  have h1 : q.num = w.1 := by rw [← hfq]
  rw [← h1, ← hpq]
  rfl

theorem bm25Fallback_isSome (idf : Nat → ℚ) (pages : List Page) (question answer : Str)
    (hne : pages ≠ []) :
    ∃ w, bm25Fallback idf pages question answer = some w ∧ ∃ p ∈ pages, p.num = w.1 := by
  rcases hh : (bm25Scores idf pages question answer).head? with _ | w
  · exfalso
    have h0 := List.head?_eq_none_iff.mp hh
    have hl := bm25Scores_length idf pages question answer
    rw [h0] at hl
    exact hne (List.length_eq_zero.mp hl.symm)
  · exact ⟨w, hh, bm25Scores_mem (List.mem_of_mem_head? (by rw [hh]; simp))⟩

theorem fallbackBullet_spec (idf : Nat → ℚ) (pages : List Page) (ranges : List ArticleRange)
    (question answer : Str) (hne : pages ≠ []) :
    ∃ w pg, bm25Fallback idf pages question answer = some w ∧
      pages.find? (fun x => x.num == w.1) = some pg ∧
      fallbackBullet idf pages ranges question answer =
        [⟨pg.num, snippetAround pg.text ((normS pg.text).length / 2),
          orElseStr
            (match rangeForPage ranges pg.num with
              | some r => r.title
              | none => []) []⟩] := by
  obtain ⟨w, hw, p, hp, hnum⟩ := bm25Fallback_isSome idf pages question answer hne
  have hfind : (pages.find? (fun x => x.num == w.1)).isSome :=
    List.find?_isSome.mpr ⟨p, hp, by simp [hnum]⟩
  rcases hf : pages.find? (fun x => x.num == w.1) with _ | pg
  · rw [hf] at hfind; simp at hfind
  · refine ⟨w, pg, hw, hf, ?_⟩
    simp only [fallbackBullet, hw, hf]

theorem fallbackBullet_mem {idf : Nat → ℚ} {pages : List Page} {ranges : List ArticleRange}
    {question answer : Str} {b : Bullet}
    (hb : b ∈ fallbackBullet idf pages ranges question answer) :
    ∃ w pg, bm25Fallback idf pages question answer = some w ∧
      pages.find? (fun x => x.num == w.1) = some pg ∧
      b.page = pg.num ∧ b.snip = snippetAround pg.text ((normS pg.text).length / 2) := by
  rcases hw : bm25Fallback idf pages question answer with _ | w
  · simp only [fallbackBullet, hw] at hb
    simp at hb
  · rcases hf : pages.find? (fun x => x.num == w.1) with _ | pg
    · simp only [fallbackBullet, hw, hf] at hb
      simp at hb
    · simp only [fallbackBullet, hw, hf, List.mem_singleton] at hb
      subst hb
      exact ⟨w, pg, rfl, hf, rfl, rfl⟩

theorem computeBullets_cases (idf : Nat → ℚ) (pages : List Page) (answer question : Str) :
    (resolveItems pages (buildArticleRanges pages) (parseLegalExcerpts answer) ≠ [] ∧
      computeBullets idf pages answer question =
        resolveItems pages (buildArticleRanges pages) (parseLegalExcerpts answer)) ∨
    (resolveItems pages (buildArticleRanges pages) (parseLegalExcerpts answer) = [] ∧
      computeBullets idf pages answer question =
        fallbackBullet idf pages (buildArticleRanges pages) question answer) := by
  by_cases hres : resolveItems pages (buildArticleRanges pages) (parseLegalExcerpts answer) = []
  · right
    refine ⟨hres, ?_⟩
    simp only [computeBullets, hres]
    simp
  · left
    refine ⟨hres, ?_⟩
    simp only [computeBullets]
    rw [if_neg (fun hcon => hres (List.isEmpty_iff.mp hcon))]

theorem attachVerification_page (idf : Nat → ℚ) (pdfHref : Str) (pages : List Page)
    (answer question : Str) :
    (attachVerification idf pdfHref pages answer question).page =
      match (computeBullets idf pages answer question).head? with
      | some b => b.page
      | none => 1 := rfl

theorem attachVerification_bullets (idf : Nat → ℚ) (pdfHref : Str) (pages : List Page)
    (answer question : Str) :
    (attachVerification idf pdfHref pages answer question).bullets =
      computeBullets idf pages answer question := rfl

theorem attachVerification_text (idf : Nat → ℚ) (pdfHref : Str) (pages : List Page)
    (answer question : Str) :
    (attachVerification idf pdfHref pages answer question).text =
      assembleText pdfHref (trimStr (cutCitationJS answer))
        (citationLine pdfHref
          (primaryHeading (buildArticleRanges pages)
            (match (computeBullets idf pages answer question).head? with
              | some b => b.page
              | none => 1)
            (computeBullets idf pages answer question))
          (match (computeBullets idf pages answer question).head? with
            | some b => b.page
            | none => 1))
        (computeBullets idf pages answer question) := rfl

theorem resolveItems_mem {pages : List Page} {ranges : List ArticleRange}
    {items : List ExcerptItem} {b : Bullet} (hb : b ∈ resolveItems pages ranges items) :
    ∃ it ∈ items.take 4, ∃ hit,
      findQuoteOnPages it.quote pages (rangeForArticleLabel ranges it.article) = some hit ∧
      b.page = hit.page ∧ b.snip = snippetAround hit.text hit.idx := by
  rw [resolveItems] at hb
  obtain ⟨it, hit_mem, hfit⟩ := List.mem_filterMap.mp hb
  rw [Option.map_eq_some'] at hfit
  obtain ⟨hit, hfind, hbe⟩ := hfit
  subst hbe
  exact ⟨it, hit_mem, hit, hfind, rfl, rfl⟩

/-- C1: no fabrication: every bullet the rewriter emits cites a page that
exists in the store, quotes a snippet that is literally a substring of that
page's stored (whitespace-normalised) text, and owes its page either to an
exact or 55-percent fuzzy location of a parsed excerpt quote or to the BM25
fallback winner -- never to a page number stated by the model; and the
primary citation page is the first bullet's page. -/
theorem C1_no_fabrication (idf : Nat → ℚ) (pages : List Page) (answer question : Str)
    (hne : pages ≠ []) (hnorm : ∀ p ∈ pages, collapseWsTrim p.text = p.text) :
    (∀ b ∈ (attachVerification idf hrefD pages answer question).bullets,
        ∃ p ∈ pages, p.num = b.page ∧ b.snip <:+: p.text ∧
          ((∃ it ∈ (parseLegalExcerpts answer).take 4,
              (exactIndexOf p.text it.quote).isSome ∨ (fuzzyBestIndex p.text it.quote).isSome)
            ∨ (∃ w, bm25Fallback idf pages question answer = some w ∧ w.1 = b.page)))
      ∧ ∃ b0, (attachVerification idf hrefD pages answer question).bullets.head? = some b0
          ∧ (attachVerification idf hrefD pages answer question).page = b0.page := by
  have hbul : (attachVerification idf hrefD pages answer question).bullets
      = computeBullets idf pages answer question := rfl
  constructor
  · intro b hb
    rw [hbul] at hb
    rcases computeBullets_cases idf pages answer question with ⟨_, hcb⟩ | ⟨_, hcb⟩ <;>
      rw [hcb] at hb
    · obtain ⟨it, hit_mem, hit, hfind, hpage, hsnip⟩ := resolveItems_mem hb
      obtain ⟨p, hp, e1, e2, e3⟩ := findQuoteOnPages_some hfind
      refine ⟨p, hp, by rw [e1, hpage], ?_, Or.inl ⟨it, hit_mem, ?_⟩⟩
      · rw [hsnip, ← e2]
        have h5 := snippetAround_substr p.text hit.idx
        rwa [hnorm p hp] at h5
      · rcases e3 with e3 | e3
        · exact Or.inl (by rw [e3]; rfl)
        · exact Or.inr (by rw [e3]; rfl)
    · obtain ⟨w, pg, hw, hf, hpage, hsnip⟩ := fallbackBullet_mem hb
      have hpg : pg ∈ pages := List.mem_of_find?_eq_some hf
      refine ⟨pg, hpg, hpage.symm, ?_, Or.inr ⟨w, hw, ?_⟩⟩
      · rw [hsnip]
        have h5 := snippetAround_substr pg.text ((normS pg.text).length / 2)
        rwa [hnorm pg hpg] at h5
      · have := List.find?_some hf
        have hnum : pg.num = w.1 := by simpa using this
        rw [← hnum, hpage]
  · have hbne : computeBullets idf pages answer question ≠ [] := by
      rcases computeBullets_cases idf pages answer question with ⟨hni, hcb⟩ | ⟨_, hcb⟩ <;>
        rw [hcb]
      · exact hni
      · obtain ⟨w, pg, _, _, hfb⟩ :=
          fallbackBullet_spec idf pages (buildArticleRanges pages) question answer hne
        rw [hfb]
        simp
    rcases hh : (computeBullets idf pages answer question).head? with _ | b0
    · exact absurd (List.head?_eq_none_iff.mp hh) hbne
    · refine ⟨b0, by rw [hbul]; exact hh, ?_⟩
      rw [attachVerification_page, hh]

/-- Witness for C1 at the concrete store `pagesAB` and answer `ansGood`. -/
theorem C1_no_fabrication_witness :
    (pagesAB ≠ [] ∧ (∀ p ∈ pagesAB, collapseWsTrim p.text = p.text)) ∧
    ((∀ b ∈ (attachVerification idfZero hrefD pagesAB ansGood []).bullets,
        ∃ p ∈ pagesAB, p.num = b.page ∧ b.snip <:+: p.text ∧
          ((∃ it ∈ (parseLegalExcerpts ansGood).take 4,
              (exactIndexOf p.text it.quote).isSome ∨ (fuzzyBestIndex p.text it.quote).isSome)
            ∨ (∃ w, bm25Fallback idfZero pagesAB [] ansGood = some w ∧ w.1 = b.page)))
      ∧ ∃ b0, (attachVerification idfZero hrefD pagesAB ansGood []).bullets.head? = some b0
          ∧ (attachVerification idfZero hrefD pagesAB ansGood []).page = b0.page) :=
  ⟨⟨by decide, by decide⟩,
    C1_no_fabrication idfZero pagesAB ansGood [] (by decide) (by decide)⟩

/-! ### Threshold lemmas -/

theorem ceil55_le_iff (n s : Nat) : ceil55 n ≤ s ↔ ((11 : ℚ) / 20) * n ≤ (s : ℚ) := by
  rw [ceil55, div_mul_eq_mul_div, div_le_iff (by norm_num : (0:ℚ) < 20)]
  rw [show ((11 : ℚ) * n = ((11 * n : Nat) : ℚ)) by push_cast; ring,
    show ((s : ℚ) * 20 = ((s * 20 : Nat) : ℚ)) by push_cast; ring,
    Nat.cast_le]
  omega

/-- C3: the fuzzy locator accepts exactly when the best token window shares
at least 55 percent of the quote's tokens; concretely, for the ten-token
quote `quote10`, the window sharing exactly five tokens is rejected (null)
and the window sharing exactly six tokens is accepted, both in part_007's
`fuzzyBestIndex` and in part_008's `fuzzyIndex`. -/
theorem C3_fuzzy_threshold_boundary :
    (∀ hay quote : Str,
      (fuzzyBestIndex hay quote).isSome = true ↔
        (tokenizeS quote ≠ [] ∧
          ((11 : ℚ) / 20) * (tokenizeS quote).length ≤
            (((bestWindow (tokenizeS quote)
              ((splitWs (stripS hay)).filter (fun w => !w.isEmpty))
              (max 6 (min ((tokenizeS quote).length + 6) 40))).2 : ℚ))))
    ∧ (tokenizeS quote10).length = 10
    ∧ windowScore (tokenizeS quote10) ((splitWs (stripS hay5)).filter (fun w => !w.isEmpty)) = 5
    ∧ fuzzyBestIndex hay5 quote10 = none
    ∧ windowScore (tokenizeS quote10) ((splitWs (stripS hay6)).filter (fun w => !w.isEmpty)) = 6
    ∧ fuzzyBestIndex hay6 quote10 = some 0
    ∧ fuzzyIndexT hay5 quote10 = none
    ∧ fuzzyIndexT hay6 quote10 = some 0 := by
  refine ⟨?_, by decide, by decide, by decide, by decide, by decide, by decide, by decide⟩
  intro hay quote
  simp only [fuzzyBestIndex]
  split
  · next hq =>
    have : tokenizeS quote = [] := List.isEmpty_iff.mp hq
    simp [this]
  · next hq =>
    have hqe : tokenizeS quote ≠ [] := fun hcon => hq (List.isEmpty_iff.mpr hcon)
    split
    · next hlt =>
      simp only [Option.isSome_none, Bool.false_eq_true, false_iff, not_and]
      intro _
      intro hge
      exact absurd ((ceil55_le_iff _ _).mpr hge) (Nat.not_le.mpr hlt)
    · next hge =>
      simp only [Option.isSome_some, true_iff]
      exact ⟨hqe, (ceil55_le_iff _ _).mp (Nat.not_lt.mp hge)⟩

/-- C4: a page whose top text is `ARTICLE IV—Player Qualifications` opens a
range at that page with exactly that heading, while a page whose only
article mention is the inline cross-reference `as defined in Article IV(B)`
sitting beyond the 900-character top-of-page slice opens no range. -/
theorem C4_heading_precision :
    buildArticleRangesT [pageArt4, pageXref] =
        [⟨1, 2, "ARTICLE IV—Player Qualifications".data⟩]
      ∧ detectMainTitleTop pageArt4.text = some "ARTICLE IV—Player Qualifications".data
      ∧ detectMainTitleTop pageXref.text = none
      ∧ idxOfSub "as defined in Article IV(B)".data pageXref.text = some 905 := by
  refine ⟨by decide, by decide, by decide, by decide⟩

/-! ### Range-construction lemmas (part_007 lines 98-118) -/

theorem rangesFromStarts_head_start (lastNum : Nat) (s : ArticleStart)
    (rest : List ArticleStart) :
    ∃ r, (rangesFromStarts (s :: rest) lastNum).head? = some r ∧ r.start = s.page := by
  cases rest with
  | nil => exact ⟨⟨s.page, lastNum, mkRangeTitle s.title⟩, by simp [rangesFromStarts], rfl⟩
  | cons s2 rest2 =>
    exact ⟨⟨s.page, s2.page - 1, mkRangeTitle s.title⟩, by simp [rangesFromStarts], rfl⟩

theorem rangesFromStarts_chain (lastNum : Nat) :
    ∀ starts : List ArticleStart,
      List.Chain' (fun s1 s2 => s1.page < s2.page) starts →
      List.Chain' (fun r1 r2 => r2.start = r1.stop + 1) (rangesFromStarts starts lastNum)
  | [] => fun _ => by simp [rangesFromStarts]
  | [s] => fun _ => by simp [rangesFromStarts]
  | s :: s2 :: rest => fun hch => by
    have h12 : s.page < s2.page := (List.chain'_cons.mp hch).1
    have ih := rangesFromStarts_chain lastNum (s2 :: rest) (List.chain'_cons.mp hch).2
    show List.Chain' _
      (⟨s.page, s2.page - 1, mkRangeTitle s.title⟩ :: rangesFromStarts (s2 :: rest) lastNum)
    rw [List.chain'_cons']
    refine ⟨?_, ih⟩
    intro r hr
    rw [Option.mem_def] at hr
    obtain ⟨r0, hh, hs⟩ := rangesFromStarts_head_start lastNum s2 rest
    rw [hh] at hr
    injection hr with hr
    subst hr
    show r0.start = s2.page - 1 + 1
    rw [hs]
    omega

theorem rangesFromStarts_last_stop (lastNum : Nat) :
    ∀ (s : ArticleStart) (rest : List ArticleStart),
      ∃ r, (rangesFromStarts (s :: rest) lastNum).getLast? = some r ∧ r.stop = lastNum
  | s, [] => ⟨⟨s.page, lastNum, mkRangeTitle s.title⟩, by simp [rangesFromStarts], rfl⟩
  | s, s2 :: rest2 => by
    obtain ⟨r, hl, hs⟩ := rangesFromStarts_last_stop lastNum s2 rest2
    refine ⟨r, ?_, hs⟩
    show ((⟨s.page, s2.page - 1, mkRangeTitle s.title⟩ : ArticleRange) ::
      rangesFromStarts (s2 :: rest2) lastNum).getLast? = some r
    cases rest2 with
    | nil =>
      rw [show rangesFromStarts [s2] lastNum =
        [⟨s2.page, lastNum, mkRangeTitle s2.title⟩] from rfl] at hl ⊢
      rw [List.getLast?_cons_cons]
      exact hl
    | cons s3 rest3 =>
      rw [show rangesFromStarts (s2 :: s3 :: rest3) lastNum =
        ⟨s2.page, s3.page - 1, mkRangeTitle s2.title⟩ ::
          rangesFromStarts (s3 :: rest3) lastNum from rfl] at hl ⊢
      rw [List.getLast?_cons_cons]
      exact hl

theorem rangesFromStarts_start_lb (lastNum : Nat) :
    ∀ starts : List ArticleStart,
      List.Chain' (fun s1 s2 => s1.page < s2.page) starts →
      ∀ r ∈ rangesFromStarts starts lastNum, ∀ s0 ∈ starts.head?, s0.page ≤ r.start
  | [] => fun _ r hr => by simp [rangesFromStarts] at hr
  | [s] => fun _ r hr s0 hs0 => by
    simp only [rangesFromStarts, List.mem_singleton] at hr
    simp only [List.head?_cons, Option.mem_def, Option.some.injEq] at hs0
    subst hr
    subst hs0
    exact Nat.le_refl _
  | s :: s2 :: rest => fun hch r hr s0 hs0 => by
    have h12 : s.page < s2.page := (List.chain'_cons.mp hch).1
    simp only [List.head?_cons, Option.mem_def, Option.some.injEq] at hs0
    subst hs0
    rcases List.mem_cons.mp hr with hr | hr
    · subst hr
      exact Nat.le_refl _
    · have ih := rangesFromStarts_start_lb lastNum (s2 :: rest)
        (List.chain'_cons.mp hch).2 r hr s2 (by simp)
      omega

theorem rangesFromStarts_valid (lastNum : Nat) :
    ∀ starts : List ArticleStart,
      List.Chain' (fun s1 s2 => s1.page < s2.page) starts →
      (∀ st ∈ starts, st.page ≤ lastNum) →
      ∀ r ∈ rangesFromStarts starts lastNum, r.start ≤ r.stop
  | [] => fun _ _ r hr => by simp [rangesFromStarts] at hr
  | [s] => fun _ hle r hr => by
    simp only [rangesFromStarts, List.mem_singleton] at hr
    subst hr
    exact hle s (by simp)
  | s :: s2 :: rest => fun hch hle r hr => by
    have h12 : s.page < s2.page := (List.chain'_cons.mp hch).1
    rcases List.mem_cons.mp hr with hr | hr
    · subst hr
      show s.page ≤ s2.page - 1
      omega
    · exact rangesFromStarts_valid lastNum (s2 :: rest) (List.chain'_cons.mp hch).2
        (fun st hst => hle st (List.mem_cons_of_mem _ hst)) r hr

theorem rangesFromStarts_pairwise (lastNum : Nat) :
    ∀ starts : List ArticleStart,
      List.Chain' (fun s1 s2 => s1.page < s2.page) starts →
      List.Pairwise (fun r1 r2 => r1.stop < r2.start) (rangesFromStarts starts lastNum)
  | [] => fun _ => by simp [rangesFromStarts]
  | [s] => fun _ => by simp [rangesFromStarts]
  | s :: s2 :: rest => fun hch => by
    have h12 : s.page < s2.page := (List.chain'_cons.mp hch).1
    have htail := (List.chain'_cons.mp hch).2
    have ih := rangesFromStarts_pairwise lastNum (s2 :: rest) htail
    show List.Pairwise _
      (⟨s.page, s2.page - 1, mkRangeTitle s.title⟩ :: rangesFromStarts (s2 :: rest) lastNum)
    rw [List.pairwise_cons]
    refine ⟨?_, ih⟩
    intro r hr
    have hlb := rangesFromStarts_start_lb lastNum (s2 :: rest) htail r hr s2 (by simp)
    show s2.page - 1 < r.start
    omega

theorem rangesFromStarts_cover (lastNum : Nat) :
    ∀ starts : List ArticleStart,
      List.Chain' (fun s1 s2 => s1.page < s2.page) starts →
      ∀ x, (∀ s0 ∈ starts.head?, s0.page ≤ x) → starts ≠ [] → x ≤ lastNum →
      ∃ r ∈ rangesFromStarts starts lastNum, r.start ≤ x ∧ x ≤ r.stop
  | [] => fun _ _ _ hne _ => absurd rfl hne
  | [s] => fun _ x hhead _ hlast =>
    ⟨⟨s.page, lastNum, mkRangeTitle s.title⟩, by simp [rangesFromStarts],
      hhead s (by simp), hlast⟩
  | s :: s2 :: rest => fun hch x hhead _ hlast => by
    have h12 : s.page < s2.page := (List.chain'_cons.mp hch).1
    have htail := (List.chain'_cons.mp hch).2
    by_cases hx : x < s2.page
    · refine ⟨⟨s.page, s2.page - 1, mkRangeTitle s.title⟩, by simp [rangesFromStarts],
        hhead s (by simp), ?_⟩
      show x ≤ s2.page - 1
      omega
    · obtain ⟨r, hr, hr1, hr2⟩ := rangesFromStarts_cover lastNum (s2 :: rest) htail x
        (by intro s0 hs0; simp only [List.head?_cons, Option.mem_def,
          Option.some.injEq] at hs0; subst hs0; omega)
        (by simp) hlast
      exact ⟨r, List.mem_cons_of_mem _ hr, hr1, hr2⟩

theorem sortAsc_eq_self {α : Type} (key : α → Nat) :
    ∀ l : List α, List.Chain' (fun x y => key x ≤ key y) l → sortAsc key l = l
  | [] => fun _ => rfl
  | [a] => fun _ => rfl
  | a :: b :: l => fun h => by
    have h1 : key a ≤ key b := (List.chain'_cons.mp h).1
    have ih := sortAsc_eq_self key (b :: l) (List.chain'_cons.mp h).2
    show insAsc key a (sortAsc key (b :: l)) = a :: b :: l
    rw [ih, insAsc, if_pos h1]

theorem articleStarts_pages_sublist :
    ∀ pages : List Page,
      ((articleStarts pages).map (fun s => s.page)).Sublist (pages.map (fun p => p.num))
  | [] => by simp [articleStarts]
  | p :: rest => by
    have ih := articleStarts_pages_sublist rest
    rw [articleStarts] at ih ⊢
    rw [List.filterMap_cons]
    rcases h : (detectArticleTitle (pageStartSlice p.text)).map
        (fun head => (⟨p.num, upperHead head⟩ : ArticleStart)) with _ | s
    · exact List.Sublist.cons _ ih
    · have hs : s.page = p.num := by
        rcases Option.map_eq_some'.mp h with ⟨hd, _, rfl⟩
        rfl
      rw [List.map_cons, List.map_cons, hs]
      exact List.Sublist.cons₂ _ ih

theorem articleStarts_chain (pages : List Page)
    (hsorted : List.Chain' (fun p q => p.num < q.num) pages) :
    List.Chain' (fun s1 s2 => s1.page < s2.page) (articleStarts pages) := by
  have h1 : List.Chain' (fun a b => a < b) (pages.map (fun p => p.num)) :=
    (List.chain'_map _).mpr hsorted
  have h2 : List.Pairwise (fun a b => a < b) (pages.map (fun p => p.num)) :=
    List.chain'_iff_pairwise.mp h1
  have h3 := h2.sublist (articleStarts_pages_sublist pages)
  exact (List.chain'_map _).mp (List.chain'_iff_pairwise.mpr h3)

theorem chain_lt_le_getLast? :
    ∀ l : List Nat, List.Chain' (fun a b => a < b) l →
      ∀ x ∈ l, ∀ m ∈ l.getLast?, x ≤ m
  | [] => fun _ x hx => by simp at hx
  | [a] => fun _ x hx m hm => by
    simp only [List.mem_singleton] at hx
    simp only [List.getLast?_singleton, Option.mem_def, Option.some.injEq] at hm
    omega
  | a :: b :: l => fun hch x hx m hm => by
    have hab : a < b := (List.chain'_cons.mp hch).1
    have htail := (List.chain'_cons.mp hch).2
    rw [List.getLast?_cons_cons] at hm
    rcases List.mem_cons.mp hx with rfl | hx
    · have hb := chain_lt_le_getLast? (b :: l) htail b (by simp) m hm
      omega
    · exact chain_lt_le_getLast? (b :: l) htail x hx m hm

theorem articleStarts_page_le_last (pages : List Page)
    (hsorted : List.Chain' (fun p q => p.num < q.num) pages) (hne : pages ≠ []) :
    ∀ st ∈ articleStarts pages,
      st.page ≤ (pages.getLast?.map (fun p => p.num)).getD 0 := by
  intro st hst
  have hmem : st.page ∈ pages.map (fun p => p.num) :=
    (articleStarts_pages_sublist pages).subset
      (List.mem_map_of_mem (fun s => s.page) hst)
  have hchain : List.Chain' (fun a b => a < b) (pages.map (fun p => p.num)) :=
    (List.chain'_map _).mpr hsorted
  obtain ⟨pl, hpl⟩ := Option.isSome_iff_exists.mp (List.getLast?_isSome.mpr hne)
  have hlm : (pages.map (fun p => p.num)).getLast? = some pl.num := by
    rw [List.getLast?_map, hpl, Option.map_some']
  have := chain_lt_le_getLast? (pages.map (fun p => p.num)) hchain st.page hmem pl.num
    (by rw [Option.mem_def]; exact hlm)
  rw [hpl, Option.map_some', Option.getD_some]
  exact this

theorem buildArticleRanges_eq (pages : List Page)
    (hsorted : List.Chain' (fun p q => p.num < q.num) pages) :
    buildArticleRanges pages =
      rangesFromStarts (articleStarts pages)
        ((pages.getLast?.map (fun p => p.num)).getD 0) := by
  rw [buildArticleRanges]
  rw [sortAsc_eq_self (fun s => s.page) (articleStarts pages)
    ((articleStarts_chain pages hsorted).imp (fun a b h => Nat.le_of_lt h))]

/-- C5 counterexample: on a sorted two-page document whose only detected
heading sits on page 2, `buildArticleRanges` produces the single range 2-2,
so page 1 of the document's span is covered by no range; the ranges do not
cover the full page span. -/
theorem C5_ranges_counterexample :
    buildArticleRanges pagesLateHead = [⟨2, 2, "Article i pay".data⟩]
      ∧ pagesLateHead.map (fun p => p.num) = [1, 2]
      ∧ rangeForPage (buildArticleRanges pagesLateHead) 1 = none := by
  refine ⟨by decide, by decide, by decide⟩

/-- C5 (amended): on a page list sorted by increasing page number, the ranges
returned by `buildArticleRanges` are contiguous (each range starts one page
after the previous range's end), pairwise non-overlapping, non-empty
(`start ≤ stop`), the final range ends at the document's last page, and every
page from the first detected heading's page to the last page lies in some
range.  The span before the first detected heading is not covered (see the
counterexample), so coverage holds from the first range's start, not from the
document's first page. -/
theorem C5_ranges_contiguous_cover (pages : List Page)
    (hsorted : List.Chain' (fun p q => p.num < q.num) pages)
    (hne : pages ≠ []) :
    List.Chain' (fun r1 r2 => r2.start = r1.stop + 1) (buildArticleRanges pages)
    ∧ List.Pairwise (fun r1 r2 => r1.stop < r2.start) (buildArticleRanges pages)
    ∧ (∀ r ∈ buildArticleRanges pages, r.start ≤ r.stop)
    ∧ (∀ rl ∈ (buildArticleRanges pages).getLast?,
        rl.stop = (pages.getLast?.map (fun p => p.num)).getD 0)
    ∧ (∀ x, (∀ r0 ∈ (buildArticleRanges pages).head?, r0.start ≤ x) →
        x ≤ (pages.getLast?.map (fun p => p.num)).getD 0 →
        buildArticleRanges pages ≠ [] →
        ∃ r ∈ buildArticleRanges pages, r.start ≤ x ∧ x ≤ r.stop) := by
  have heq := buildArticleRanges_eq pages hsorted
  have hchain := articleStarts_chain pages hsorted
  have hle := articleStarts_page_le_last pages hsorted hne
  rw [heq]
  refine ⟨rangesFromStarts_chain _ _ hchain, rangesFromStarts_pairwise _ _ hchain,
    rangesFromStarts_valid _ _ hchain hle, ?_, ?_⟩
  · intro rl hrl
    rw [Option.mem_def] at hrl
    cases hst : articleStarts pages with
    | nil => rw [hst] at hrl; simp [rangesFromStarts] at hrl
    | cons s rest =>
      obtain ⟨r, hl, hs⟩ := rangesFromStarts_last_stop
        ((pages.getLast?.map (fun p => p.num)).getD 0) s rest
      rw [hst, hl] at hrl
      injection hrl with hrl
      rw [← hrl]
      exact hs
  · intro x hhead hlast hner
    cases hst : articleStarts pages with
    | nil => rw [hst] at hner; simp [rangesFromStarts] at hner
    | cons s rest =>
      refine rangesFromStarts_cover _ _ (hst ▸ hchain) x ?_ (by simp) hlast
      intro s0 hs0
      rw [List.head?_cons, Option.mem_def] at hs0
      injection hs0 with hs0
      obtain ⟨r0, hh, hr0⟩ := rangesFromStarts_head_start
        ((pages.getLast?.map (fun p => p.num)).getD 0) s rest
      have := hhead r0 (by rw [Option.mem_def, hst]; exact hh)
      rw [← hs0, ← hr0]
      exact this

/-- C5 amended-theorem witness at the two-page instance. -/
theorem C5_ranges_contiguous_cover_witness :
    (List.Chain' (fun p q => p.num < q.num) pagesLateHead ∧ pagesLateHead ≠ [])
    ∧ (List.Chain' (fun r1 r2 => r2.start = r1.stop + 1) (buildArticleRanges pagesLateHead)
      ∧ List.Pairwise (fun r1 r2 => r1.stop < r2.start) (buildArticleRanges pagesLateHead)
      ∧ (∀ r ∈ buildArticleRanges pagesLateHead, r.start ≤ r.stop)
      ∧ (∀ rl ∈ (buildArticleRanges pagesLateHead).getLast?,
          rl.stop = (pagesLateHead.getLast?.map (fun p => p.num)).getD 0)
      ∧ (∀ x, (∀ r0 ∈ (buildArticleRanges pagesLateHead).head?, r0.start ≤ x) →
          x ≤ (pagesLateHead.getLast?.map (fun p => p.num)).getD 0 →
          buildArticleRanges pagesLateHead ≠ [] →
          ∃ r ∈ buildArticleRanges pagesLateHead, r.start ≤ x ∧ x ≤ r.stop)) :=
  ⟨⟨by simp [pagesLateHead], by decide⟩,
    C5_ranges_contiguous_cover pagesLateHead (by simp [pagesLateHead]) (by decide)⟩

/-! ### Empty-store and fallback lemmas for the failure semantics -/

theorem findQuoteOnPages_nil (quote : Str) (prefer : Option ArticleRange) :
    findQuoteOnPages quote [] prefer = none := by
  cases prefer <;> simp [findQuoteOnPages, exactPass, fuzzyPass]

theorem resolveItems_pages_nil (ranges : List ArticleRange) (items : List ExcerptItem) :
    resolveItems [] ranges items = [] := by
  rw [resolveItems, List.filterMap_eq_nil]
  intro it _
  simp [findQuoteOnPages_nil]

theorem computeBullets_pages_nil (idf : Nat → ℚ) (answer question : Str) :
    computeBullets idf [] answer question = [] := by
  simp only [computeBullets, resolveItems_pages_nil]
  simp [fallbackBullet, bm25Fallback, bm25Scores, sortDesc]

/-- C7 counterexample: on a store where the single excerpt quote matches no
page, `attachVerification` does not return the original text with a
"page not found" marker; it appends a citation and a BM25-fallback source
bullet, and on an empty store it cites page 1, a page that does not exist. -/
theorem C7_failure_counterexample :
    resolveItems pagesMiss (buildArticleRanges pagesMiss) (parseLegalExcerpts ansMiss) = []
    ∧ (attachVerification idfOne hrefD pagesMiss ansMiss []).text ≠ ansMiss
    ∧ containsSub "page not found".data
        (attachVerification idfOne hrefD pagesMiss ansMiss []).text = false
    ∧ (attachVerification idfOne hrefD pagesMiss ansMiss []).bullets ≠ []
    ∧ (attachVerification idfOne hrefD ([] : List Page) ansMiss []).page = 1
    ∧ (attachVerification idfOne hrefD ([] : List Page) ansMiss []).bullets = []
    ∧ containsSub "Page 1".data
        (attachVerification idfOne hrefD ([] : List Page) ansMiss []).text = true := by
  refine ⟨by decide, by decide, by decide, by decide, by decide, by decide, by decide⟩

/-- C7 (amended): when no excerpt item resolves, `attachVerification` emits
no failure marker: on a non-empty store it cites the BM25 fallback winner's
page (a page that exists in the store) with a mid-page snippet bullet, and on
an empty store it cites the default page 1 with no bullets. -/
theorem C7_unresolved_uses_bm25_fallback (idf : Nat → ℚ) (pdfHref : Str)
    (pages : List Page) (answer question : Str)
    (hres : resolveItems pages (buildArticleRanges pages) (parseLegalExcerpts answer) = [])
    (hne : pages ≠ []) :
    (∃ w pg, bm25Fallback idf pages question answer = some w ∧
      pg ∈ pages ∧ pg.num = w.1 ∧
      (attachVerification idf pdfHref pages answer question).page = pg.num ∧
      (attachVerification idf pdfHref pages answer question).bullets =
        [⟨pg.num, snippetAround pg.text ((normS pg.text).length / 2),
          orElseStr
            (match rangeForPage (buildArticleRanges pages) pg.num with
              | some r => r.title
              | none => []) []⟩])
    ∧ (attachVerification idf pdfHref ([] : List Page) answer question).page = 1
    ∧ (attachVerification idf pdfHref ([] : List Page) answer question).bullets = [] := by
  obtain ⟨w, pg, hw, hf, hfb⟩ :=
    fallbackBullet_spec idf pages (buildArticleRanges pages) question answer hne
  have hcb : computeBullets idf pages answer question =
      fallbackBullet idf pages (buildArticleRanges pages) question answer := by
    rcases computeBullets_cases idf pages answer question with ⟨hne2, _⟩ | ⟨_, h⟩
    · exact absurd hres hne2
    · exact h
  refine ⟨⟨w, pg, hw, List.mem_of_find?_eq_some hf, ?_, ?_, ?_⟩, ?_, ?_⟩
  · have := List.find?_some hf
    simpa using this
  · rw [attachVerification_page, hcb, hfb]
    rfl
  · show computeBullets idf pages answer question = _
    rw [hcb, hfb]
  · rw [attachVerification_page, computeBullets_pages_nil]
    rfl
  · show computeBullets idf ([] : List Page) answer question = _
    rw [computeBullets_pages_nil]

/-- C7 amended-theorem witness at the unresolvable-quote instance. -/
theorem C7_unresolved_uses_bm25_fallback_witness :
    (resolveItems pagesMiss (buildArticleRanges pagesMiss) (parseLegalExcerpts ansMiss) = []
      ∧ pagesMiss ≠ [])
    ∧ ((∃ w pg, bm25Fallback idfOne pagesMiss [] ansMiss = some w ∧
        pg ∈ pagesMiss ∧ pg.num = w.1 ∧
        (attachVerification idfOne hrefD pagesMiss ansMiss []).page = pg.num ∧
        (attachVerification idfOne hrefD pagesMiss ansMiss []).bullets =
          [⟨pg.num, snippetAround pg.text ((normS pg.text).length / 2),
            orElseStr
              (match rangeForPage (buildArticleRanges pagesMiss) pg.num with
                | some r => r.title
                | none => []) []⟩])
      ∧ (attachVerification idfOne hrefD ([] : List Page) ansMiss []).page = 1
      ∧ (attachVerification idfOne hrefD ([] : List Page) ansMiss []).bullets = []) :=
  ⟨⟨by decide, by decide⟩,
    C7_unresolved_uses_bm25_fallback idfOne hrefD pagesMiss ansMiss [] (by decide) (by decide)⟩

/-- C8 counterexample: an answer whose excerpts block is interrupted by a
`Citation:` line resolves pages 1 and 2 on the first pass, but the first
pass's own citation strip deletes the second excerpt from the rewritten text,
so the second pass resolves only page 1 — the set of resolved pages is not
idempotent. -/
theorem C8_idempotence_counterexample :
    (attachVerification idfOne hrefD pagesAB ansSplit []).bullets.map (fun b => b.page)
        = [1, 2]
    ∧ (attachVerification idfOne hrefD pagesAB
        (attachVerification idfOne hrefD pagesAB ansSplit []).text []).bullets.map
          (fun b => b.page) = [1] := by
  refine ⟨by decide, by decide⟩

/-- C8 (amended): the second pass cites the same pages as the first only
under the extra hypothesis that the first pass's rewritten text parses to the
same excerpt items as the original answer (the citation strip can delete
excerpt items, see the counterexample) and that at least one item resolves
(otherwise the BM25 fallback rescores the rewritten text); under those
hypotheses the source bullets and the primary page are unchanged. -/
theorem C8_second_pass_same_pages (idf : Nat → ℚ) (pdfHref : Str) (pages : List Page)
    (answer question : Str)
    (hpres : parseLegalExcerpts (attachVerification idf pdfHref pages answer question).text =
      parseLegalExcerpts answer)
    (hres : resolveItems pages (buildArticleRanges pages) (parseLegalExcerpts answer) ≠ []) :
    (attachVerification idf pdfHref pages
        (attachVerification idf pdfHref pages answer question).text question).bullets =
      (attachVerification idf pdfHref pages answer question).bullets
    ∧ (attachVerification idf pdfHref pages
        (attachVerification idf pdfHref pages answer question).text question).page =
      (attachVerification idf pdfHref pages answer question).page := by
  have h1 : computeBullets idf pages answer question =
      resolveItems pages (buildArticleRanges pages) (parseLegalExcerpts answer) := by
    rcases computeBullets_cases idf pages answer question with ⟨_, h⟩ | ⟨he, _⟩
    · exact h
    · exact absurd he hres
  have h2 : computeBullets idf pages
      (attachVerification idf pdfHref pages answer question).text question =
      resolveItems pages (buildArticleRanges pages) (parseLegalExcerpts answer) := by
    rcases computeBullets_cases idf pages
        (attachVerification idf pdfHref pages answer question).text question with
        ⟨_, h⟩ | ⟨he, _⟩
    · rw [h, hpres]
    · rw [hpres] at he
      exact absurd he hres
  constructor
  · rw [attachVerification_bullets, attachVerification_bullets, h1, h2]
  · rw [attachVerification_page, attachVerification_page, h1, h2]

/-- C8 amended-theorem witness at the well-formed-answer instance. -/
theorem C8_second_pass_same_pages_witness :
    (parseLegalExcerpts (attachVerification idfOne hrefD pagesOne ansGood []).text =
        parseLegalExcerpts ansGood
      ∧ resolveItems pagesOne (buildArticleRanges pagesOne)
          (parseLegalExcerpts ansGood) ≠ [])
    ∧ ((attachVerification idfOne hrefD pagesOne
          (attachVerification idfOne hrefD pagesOne ansGood []).text []).bullets =
        (attachVerification idfOne hrefD pagesOne ansGood []).bullets
      ∧ (attachVerification idfOne hrefD pagesOne
          (attachVerification idfOne hrefD pagesOne ansGood []).text []).page =
        (attachVerification idfOne hrefD pagesOne ansGood []).page) :=
  ⟨⟨by decide, by decide⟩,
    C8_second_pass_same_pages idfOne hrefD pagesOne ansGood [] (by decide) (by decide)⟩

/-- C9 counterexample: the snippet window is cut at raw character offsets, so
words are split at the window boundary: on a page of 43 identical
twenty-character words, the snippet around offset 300 begins with the
fragment `t` and ends with the fragment `abcdefghijklm`, neither of which is
a word of the page. -/
theorem C9_snippet_counterexample :
    splitWs textLong = List.replicate 43 wordLong
    ∧ (splitWs (snippetAround textLong 300)).head? = some ['t']
    ∧ ['t'] ∉ splitWs textLong
    ∧ (splitWs (snippetAround textLong 300)).getLast? = some "abcdefghijklm".data
    ∧ "abcdefghijklm".data ∉ splitWs textLong := by
  refine ⟨by decide, by decide, by decide, by decide, by decide⟩

/-- C9 (amended): for every page text and offset, the snippet is a
contiguous substring of the whitespace-collapsed page text and holds at most
45 words; the 25-word lower bound and the no-word-splitting part of the
claim do not hold (the window is cut at character offsets, see the
counterexample), and determinism holds trivially of the extracted pure
function. -/
theorem C9_snippet_infix_bound (text : Str) (idx : Nat) :
    snippetAround text idx <:+: collapseWsTrim text
    ∧ wordCount (snippetAround text idx) ≤ 45 :=
  ⟨snippetAround_substr text idx, wordCount_snippetAround_le text idx⟩

/-! ### Citation-line strip lemmas -/

theorem ciIsPrefix_citation_cons (tail : Str) :
    ciIsPrefix "citation:".data ("Citation:".data ++ tail) = true := by
  rw [ciIsPrefix, List.take_append_of_le_length (by decide)]
  decide

theorem ciIsPrefix_citation_append_nl (pre rest : Str)
    (h : ciIsPrefix "citation:".data pre = false) :
    ciIsPrefix "citation:".data (pre ++ '\n' :: rest) = false := by
  by_cases hlen : ("citation:".data).length ≤ pre.length
  · rw [ciIsPrefix] at h ⊢
    rw [List.take_append_of_le_length hlen]
    exact h
  · rw [ciIsPrefix]
    apply Bool.eq_false_iff.mpr
    intro hc
    have heq : jsLower ((pre ++ '\n' :: rest).take ("citation:".data).length) =
        "citation:".data := eq_of_beq hc
    have hmem : '\n' ∈ jsLower ((pre ++ '\n' :: rest).take ("citation:".data).length) := by
      rw [List.take_append_eq_append_take]
      have h1 : 0 < ("citation:".data).length - pre.length := by
        have : ("citation:".data).length = 9 := by decide
        omega
      have h2 : '\n' ∈ ('\n' :: rest).take (("citation:".data).length - pre.length) := by
        cases hn : ("citation:".data).length - pre.length with
        | zero => omega
        | succ k => simp
      rw [jsLower, List.map_append]
      refine List.mem_append_right _ ?_
      have h3 := List.mem_map_of_mem Char.toLower h2
      simpa using h3
    rw [heq] at hmem
    exact absurd hmem (by decide)

theorem cutCitationGo_before_cite (tail : Str) :
    ∀ pre : Str, hasCiteLineIn pre = false →
      cutCitationGo (pre ++ '\n' :: ("Citation:".data ++ tail)) = pre
  | [], _ => by
    have hc : (('\n' == '\n') &&
        ciIsPrefix "citation:".data ("Citation:".data ++ tail)) = true := by
      rw [Bool.and_eq_true]
      exact ⟨rfl, ciIsPrefix_citation_cons tail⟩
    rw [List.nil_append, cutCitationGo, if_pos hc]
  | c :: p', h => by
    rw [hasCiteLineIn, Bool.or_eq_false_iff] at h
    rw [List.cons_append, cutCitationGo]
    have hcond : (c == '\n' &&
        ciIsPrefix "citation:".data (p' ++ '\n' :: ("Citation:".data ++ tail))) = false := by
      by_cases hceq : c = '\n'
      · subst hceq
        have hp : ciIsPrefix "citation:".data p' = false := by
          have h1 := h.1
          rwa [beq_self_eq_true, Bool.true_and] at h1
        rw [ciIsPrefix_citation_append_nl p' _ hp]
        simp
      · rw [beq_eq_false_iff_ne.mpr hceq]
        simp
    rw [if_neg (by rw [hcond]; exact Bool.false_ne_true)]
    rw [cutCitationGo_before_cite tail p' h.2]

theorem cutCitationJS_before_cite (pre tail : Str)
    (hpre : hasCiteLineIn pre = false)
    (hhead : ciIsPrefix "citation:".data pre = false) :
    cutCitationJS (pre ++ '\n' :: ("Citation:".data ++ tail)) = pre := by
  rw [cutCitationJS, ciIsPrefix_citation_append_nl pre _ hhead]
  rw [if_neg (by simp)]
  exact cutCitationGo_before_cite tail pre hpre

/-- C10 counterexample: the strip deletes everything after the `Citation:`
line from the base text, but the excerpt parser runs on the full original
answer, so the article label `SecretLabel`, which occurs only after the
`Citation:` line of the input, reappears in the rewritten answer as the
source bullet's heading. -/
theorem C10_citation_cut_counterexample :
    cutCitationJS ansSecret = "intro".data
    ∧ ansSecret = "intro".data ++ '\n' :: ("Citation:".data ++ tailSecret)
    ∧ containsSub "SecretLabel".data (cutCitationJS ansSecret) = false
    ∧ containsSub "SecretLabel".data
        (attachVerification idfOne hrefD pagesOne ansSecret []).text = true
    ∧ (attachVerification idfOne hrefD pagesOne ansSecret []).bullets.map
        (fun b => b.heading) = ["SecretLabel".data] := by
  refine ⟨by decide, by decide, by decide, by decide, by decide⟩

/-- C10 (amended): when the answer is a clean prefix (no `Citation:` line at
its start or inside it) followed by a `Citation:` line, the strip keeps
exactly that prefix as the base of the rewritten text; but the appended
citation and source bullets are computed from the full original answer, so
content placed after the model's `Citation:` line can still reach the output
through the parsed excerpts (see the counterexample). -/
theorem C10_citation_line_cut (idf : Nat → ℚ) (pdfHref : Str) (pages : List Page)
    (pre tail question : Str)
    (hpre : hasCiteLineIn pre = false)
    (hhead : ciIsPrefix "citation:".data pre = false) :
    cutCitationJS (pre ++ '\n' :: ("Citation:".data ++ tail)) = pre
    ∧ (attachVerification idf pdfHref pages (pre ++ '\n' :: ("Citation:".data ++ tail))
          question).text =
        assembleText pdfHref (trimStr pre)
          (citationLine pdfHref
            (primaryHeading (buildArticleRanges pages)
              (match (computeBullets idf pages
                  (pre ++ '\n' :: ("Citation:".data ++ tail)) question).head? with
                | some b => b.page
                | none => 1)
              (computeBullets idf pages (pre ++ '\n' :: ("Citation:".data ++ tail)) question))
            (match (computeBullets idf pages
                (pre ++ '\n' :: ("Citation:".data ++ tail)) question).head? with
              | some b => b.page
              | none => 1))
          (computeBullets idf pages (pre ++ '\n' :: ("Citation:".data ++ tail)) question) := by
  have hcut := cutCitationJS_before_cite pre tail hpre hhead
  refine ⟨hcut, ?_⟩
  rw [attachVerification_text, hcut]

/-- C10 amended-theorem witness at the hidden-label instance. -/
theorem C10_citation_line_cut_witness :
    (hasCiteLineIn "intro".data = false
      ∧ ciIsPrefix "citation:".data "intro".data = false)
    ∧ (cutCitationJS ("intro".data ++ '\n' :: ("Citation:".data ++ tailSecret)) = "intro".data
      ∧ (attachVerification idfOne hrefD pagesOne
            ("intro".data ++ '\n' :: ("Citation:".data ++ tailSecret)) []).text =
          assembleText hrefD (trimStr "intro".data)
            (citationLine hrefD
              (primaryHeading (buildArticleRanges pagesOne)
                (match (computeBullets idfOne pagesOne
                    ("intro".data ++ '\n' :: ("Citation:".data ++ tailSecret)) []).head? with
                  | some b => b.page
                  | none => 1)
                (computeBullets idfOne pagesOne
                  ("intro".data ++ '\n' :: ("Citation:".data ++ tailSecret)) []))
              (match (computeBullets idfOne pagesOne
                  ("intro".data ++ '\n' :: ("Citation:".data ++ tailSecret)) []).head? with
                | some b => b.page
                | none => 1))
            (computeBullets idfOne pagesOne
              ("intro".data ++ '\n' :: ("Citation:".data ++ tailSecret)) [])) :=
  ⟨⟨by decide, by decide⟩,
    C10_citation_line_cut idfOne hrefD pagesOne "intro".data tailSecret []
      (by decide) (by decide)⟩

/-! ### Ranker lemmas (part_008 lines 602-647) -/

theorem bm25Score_eq (idf : Nat → ℚ) (idx : List PageIdx)
    (queryTokens queryBigrams : List Str) :
    bm25Score idf idx queryTokens queryBigrams =
      (((bm25SortedScores idf idx queryTokens queryBigrams).filter
          (fun x => decide (bm25Top idf idx queryTokens queryBigrams * (9 / 20) ≤ x.2))).take
            6).filter
        (fun x => decide (-(100000000 : ℚ) < x.2)) := rfl

/-- C6: the ranker keeps at most 6 pages, each kept page's score is at least
45 percent of the top score and above the `-1e8` exclusion bound, each kept
entry is a real page of the index whose text contains one of the 1-2 gated
highest-IDF query tokens, a page containing none of the gated tokens is
scored `-1e9` (and hence never kept), the gated list holds at most two tokens
and only tokens of maximal IDF, bigram term contributions weigh 1.5 times
unigram contributions, and the unigram term formula is BM25 with `k1 = 1.5`
and `b = 0.75`.  The structural heading bonuses 0.8 and 0.6 appear in
`bm25ScoreOf`, which the third conjunct ties to every kept score. -/
theorem C6_ranker_gate_and_band (idf : Nat → ℚ) (idx : List PageIdx)
    (queryTokens queryBigrams : List Str) :
    (bm25Score idf idx queryTokens queryBigrams).length ≤ 6
    ∧ (∀ x ∈ bm25Score idf idx queryTokens queryBigrams,
        bm25Top idf idx queryTokens queryBigrams * (9 / 20) ≤ x.2
          ∧ -(100000000 : ℚ) < x.2)
    ∧ (∀ x ∈ bm25Score idf idx queryTokens queryBigrams,
        ∃ p ∈ idx, p.num = x.1 ∧ x.2 = bm25ScoreOf idf idx queryTokens queryBigrams p
          ∧ (bm25Gated idf idx queryTokens).any
              (fun g => !g.isEmpty && containsSub g p.lower) = true)
    ∧ (∀ p ∈ idx,
        (bm25Gated idf idx queryTokens).any (fun g => !g.isEmpty && containsSub g p.lower)
            = false →
          bm25ScoreOf idf idx queryTokens queryBigrams p = -(1000000000 : ℚ))
    ∧ (∀ x ∈ bm25Score idf idx queryTokens queryBigrams, x.2 ≠ -(1000000000 : ℚ))
    ∧ (bm25Gated idf idx queryTokens).length ≤ 2
    ∧ (∀ g ∈ bm25Gated idf idx queryTokens,
        ∀ t ∈ (sortDesc (fun t => idf (dfTok idx t)) (dedupFirst queryTokens)).drop 2,
          idf (dfTok idx t) ≤ idf (dfTok idx g))
    ∧ (∀ n tf : Nat, ∀ len avgdl : ℚ,
        bmTermScore idf n tf len avgdl (3 / 2) = 3 / 2 * bmTermScore idf n tf len avgdl 1)
    ∧ (∀ n tf : Nat, ∀ len avgdl : ℚ,
        bmTermScore idf n tf len avgdl 1 =
          if n = 0 then 0
          else if tf = 0 then 0
          else idf n * ((tf : ℚ) * (3 / 2 + 1) /
            ((tf : ℚ) + 3 / 2 * (1 - 3 / 4 + 3 / 4 * (len / avgdl))))) := by
  have hQ : ∀ x ∈ bm25Score idf idx queryTokens queryBigrams,
      (x ∈ bm25SortedScores idf idx queryTokens queryBigrams
        ∧ bm25Top idf idx queryTokens queryBigrams * (9 / 20) ≤ x.2)
        ∧ -(100000000 : ℚ) < x.2 := by
    intro x hx
    rw [bm25Score_eq] at hx
    rcases List.mem_filter.mp hx with ⟨hx1, hq⟩
    have hx2 := List.take_subset 6 _ hx1
    rcases List.mem_filter.mp hx2 with ⟨hx3, hp⟩
    exact ⟨⟨hx3, of_decide_eq_true hp⟩, of_decide_eq_true hq⟩
  refine ⟨?_, ?_, ?_, ?_, ?_, ?_, ?_, ?_, ?_⟩
  · rw [bm25Score_eq]
    exact le_trans (List.length_filter_le _ _) (List.length_take_le 6 _)
  · exact fun x hx => ⟨(hQ x hx).1.2, (hQ x hx).2⟩
  · intro x hx
    have h1 := (hQ x hx).1.1
    have h2 := (hQ x hx).2
    have h3 : x ∈ idx.map (fun p => (p.num, bm25ScoreOf idf idx queryTokens queryBigrams p)) :=
      (sortDesc_perm _ _).mem_iff.mp h1
    rcases List.mem_map.mp h3 with ⟨p, hpmem, hpe⟩
    refine ⟨p, hpmem, ?_, ?_, ?_⟩
    · rw [← hpe]
    · rw [← hpe]
    · rcases hg : (bm25Gated idf idx queryTokens).any
          (fun g => !g.isEmpty && containsSub g p.lower) with _ | _
      · exfalso
        have hscore : bm25ScoreOf idf idx queryTokens queryBigrams p = -(1000000000 : ℚ) := by
          rw [bm25ScoreOf, if_neg (by rw [hg]; exact Bool.false_ne_true)]
        have hx2 : x.2 = -(1000000000 : ℚ) := by rw [← hpe]; exact hscore
        rw [hx2] at h2
        norm_num at h2
      · rfl
  · intro p _ hg
    rw [bm25ScoreOf, if_neg (by rw [hg]; exact Bool.false_ne_true)]
  · intro x hx heq
    have h2 := (hQ x hx).2
    rw [heq] at h2
    norm_num at h2
  · rw [bm25Gated]
    exact List.length_take_le 2 _
  · intro g hg t ht
    rw [bm25Gated] at hg
    have hpw := sortDesc_pairwise (fun t => idf (dfTok idx t)) (dedupFirst queryTokens)
    rw [← List.take_append_drop 2
      (sortDesc (fun t => idf (dfTok idx t)) (dedupFirst queryTokens)),
      List.pairwise_append] at hpw
    exact hpw.2.2 g hg t ht
  · intro n tf len avgdl
    by_cases hn : n = 0
    · simp [bmTermScore, hn]
    · by_cases htf : tf = 0
      · simp [bmTermScore, hn, htf]
      · simp only [bmTermScore, if_neg hn, if_neg htf]
        ring
  · intro n tf len avgdl
    by_cases hn : n = 0
    · simp [bmTermScore, hn]
    · by_cases htf : tf = 0
      · simp [bmTermScore, hn, htf]
      · simp only [bmTermScore, if_neg hn, if_neg htf]
        ring

end Cba
